import Mathlib

/-!
Shallow embedding of the interval-scheduling core of the production-planner
repository (function `generate_timeline` in `appv2.py`, the authoritative
variant of the three near-identical scripts).

Timestamps and durations are modelled as rationals measured in hours
(`datetime` / `timedelta` arithmetic in the source is exact, so ℚ is a
faithful carrier; ℚ has no NaN and no infinities).  The two `while` loops
that consume wash candidates are modelled with an explicit fuel parameter
returning `Option`: `none` means the loop did not reach its exit condition
within the given fuel.  Everything else is a direct transcription of the
source, statement by statement.
-/

namespace ProductionPlanner

/-- Kind of a committed interval (`'task'` field in the source dictionaries). -/
inductive Task where
  | processing
  | wash
  | changeover
deriving DecidableEq, Repr

/-- A committed interval (`tasks` list entries in the source).  The source's
`'end'` key is called `stop` because `end` is a Lean keyword; the derived
`duration_hours` field of the source is omitted (it is `stop - start` in
hours).  `order` is the sort key: row index for processing/changeover,
`-1` for washes, `-2` for the pre-anchored first wash. -/
structure Interval where
  start : ℚ
  stop : ℚ
  task : Task
  product : String
  order : Int
deriving DecidableEq, Repr

/-- A wash candidate produced by the wash-cycle enumeration
(`{'start': ..., 'end': ...}` dictionaries in the source). -/
structure Wash where
  start : ℚ
  stop : ℚ
deriving DecidableEq, Repr

/-- One row of the production plan (per-product fields read at the top of the
`for i, row in df.iterrows()` loop). -/
structure Row where
  productName : String
  quantityLiters : ℚ
  processSpeedPerHour : ℚ
  lineEfficiency : ℚ
  changeOver : ℚ
deriving DecidableEq, Repr

/-- Mutable state of the scheduling pass: the two cursors and the growing
task list (`current_time`, `last_wash_end_time`, `tasks`). -/
structure SchedState where
  currentTime : ℚ
  lastWashEnd : ℚ
  tasks : List Interval
deriving DecidableEq, Repr

/-- Source lines 92-98 (changeover phase wash enumeration):

    next_wash_start_time = last_wash_end_time + gap_duration
    while next_wash_start_time < changeover_end_time:
        wash_end_time = next_wash_start_time + wash_duration
        scheduled_washes_in_changeover.append({...})
        last_wash_end_time = wash_end_time
        next_wash_start_time = last_wash_end_time + gap_duration

Returns the enumerated candidates and the final `last_wash_end_time`;
`none` when the loop does not exit within `fuel` iterations. -/
def washCandidatesLoop (washDuration gapDuration bound : ℚ) :
    ℕ → ℚ → Option (List Wash × ℚ)
  | 0, _ => none
  | fuel + 1, lastWashEnd =>
    let s := lastWashEnd + gapDuration
    if s < bound then
      let e := s + washDuration
      match washCandidatesLoop washDuration gapDuration bound fuel e with
      | none => none
      | some (ws, lw) => some (⟨s, e⟩ :: ws, lw)
    else
      some ([], lastWashEnd)

/-- Helper for `current_time = max(wash['end'] for wash in overlapping_washes)`
(source line 108): maximum of the `stop` fields of a nonempty list. -/
def maxStop (w : Wash) (ws : List Wash) : ℚ :=
  ws.foldl (fun acc v => max acc v.stop) w.stop

/-- Materialization of a wash candidate as a committed interval (the
dictionary appended on source lines 110-117). -/
def washInterval (w : Wash) : Interval :=
  ⟨w.start, w.stop, Task.wash, "Scheduled Wash", -1⟩

/-- Source lines 87-127: the changeover phase for a run with index `i > 0`.
Enumerates wash candidates before `changeover_end_time`, then either
suppresses the changeover (committing all enumerated candidates as wash
intervals and jumping the cursor to the latest end among the overlapping
ones) or commits a single changeover interval. -/
def changeoverPhase (washDuration gapDuration : ℚ) (fuel : ℕ) (i : ℕ)
    (productName : String) (changeOverMins : ℚ) (st : SchedState) :
    Option SchedState :=
  let changeoverEnd := st.currentTime + changeOverMins / 60
  match washCandidatesLoop washDuration gapDuration changeoverEnd fuel st.lastWashEnd with
  | none => none
  | some (cands, lastWashEnd') =>
    let overlapping := cands.filter fun w =>
      decide (max st.currentTime w.start < min changeoverEnd w.stop)
    if cands.any (fun w => decide (max st.currentTime w.start < min changeoverEnd w.stop)) then
      let currentTime' :=
        match overlapping with
        | [] => st.currentTime
        | w :: ws => maxStop w ws
      some ⟨currentTime', lastWashEnd', st.tasks ++ cands.map washInterval⟩
    else
      some ⟨changeoverEnd, lastWashEnd',
        st.tasks ++ [⟨st.currentTime, changeoverEnd, Task.changeover, productName, (i : Int)⟩]⟩

/-- Source lines 135-156 (processing phase wash loop): consumes wash
candidates while they start before the extended processing end, committing
each candidate that strictly overlaps the extended window (except a
candidate starting exactly at `first_wash_time`, which is skipped but still
advances `last_wash_end_time`), accumulating the total overlap duration;
breaks at the first candidate with no strict overlap.  Arguments after the
fixed parameters: fuel, `last_wash_end_time`, `total_wash_overlap_duration`,
accumulated tasks.  Returns tasks, total overlap, final last-wash-end.
The source locals are inlined: `next_wash_start_time` is
`lastWashEnd + gapDuration`, `wash_end_time` is that plus `washDuration`,
`overlap_start` is the `max` and `overlap_end` the `min` expression. -/
def processingWashLoop (washDuration gapDuration : ℚ) (firstWashTime : Option ℚ)
    (currentTime processingEnd : ℚ) :
    ℕ → ℚ → ℚ → List Interval → Option (List Interval × ℚ × ℚ)
  | 0, _, _, _ => none
  | fuel + 1, lastWashEnd, totalOverlap, tasks =>
    if lastWashEnd + gapDuration < processingEnd + totalOverlap then
      if max currentTime (lastWashEnd + gapDuration) <
          min (processingEnd + totalOverlap) (lastWashEnd + gapDuration + washDuration) then
        processingWashLoop washDuration gapDuration firstWashTime currentTime
          processingEnd fuel (lastWashEnd + gapDuration + washDuration)
          (totalOverlap +
            (min (processingEnd + totalOverlap) (lastWashEnd + gapDuration + washDuration) -
              max currentTime (lastWashEnd + gapDuration)))
          (if firstWashTime = some (lastWashEnd + gapDuration) then tasks
           else tasks ++ [⟨lastWashEnd + gapDuration,
              lastWashEnd + gapDuration + washDuration, Task.wash, "Scheduled Wash", -1⟩])
      else
        some (tasks, totalOverlap, lastWashEnd)
    else
      some (tasks, totalOverlap, lastWashEnd)

/-- Lexicographic order on `(start, end)` pairs, as used by Python's
`scheduled_wash_intervals.sort()` on tuples. -/
def washLE (a b : Wash) : Prop :=
  a.start < b.start ∨ (a.start = b.start ∧ a.stop ≤ b.stop)

instance : DecidableRel washLE := fun a b => by
  unfold washLE; infer_instance

/-- Insertion step of a structural insertion sort realising `list.sort()`. -/
def insertWash (w : Wash) : List Wash → List Wash
  | [] => [w]
  | v :: vs => if washLE w v then w :: v :: vs else v :: insertWash w vs

/-- Structural sort of the cut-wash list (Python `list.sort()` on tuples;
the elements are bare pairs, so stability is irrelevant). -/
def sortWashes : List Wash → List Wash
  | [] => []
  | w :: ws => insertWash w (sortWashes ws)

/-- Source lines 168-178 (segmentation walk): walk the sorted cut washes
left to right, emitting a processing interval for every gap between the
running segment cursor and the next wash start, advancing the cursor to
`max(cursor, wash_end)`.  Returns the emitted segments and the final
cursor. -/
def segmentWalk (i : Int) (productName : String) :
    List Wash → ℚ → List Interval × ℚ
  | [], segStart => ([], segStart)
  | w :: ws, segStart =>
    let head : List Interval :=
      if segStart < w.start then
        [⟨segStart, w.start, Task.processing, productName, i⟩]
      else []
    let rest := segmentWalk i productName ws (max segStart w.stop)
    (head ++ rest.1, rest.2)

/-- Source lines 129-190: the processing phase of one run.  Computes the
nominal processing end via `quantity / (speed * efficiency)`, pulls wash
candidates under the fixed-point extended window, filters all committed
washes cutting the nominal window, sorts them, walks the segments, emits
the final segment up to the extended end, and advances the cursor. -/
def processingPhase (washDuration gapDuration : ℚ) (firstWashTime : Option ℚ)
    (fuel : ℕ) (i : ℕ) (row : Row) (st : SchedState) : Option SchedState :=
  let effectiveSpeed := row.processSpeedPerHour * row.lineEfficiency
  let totalProcessingHours := row.quantityLiters / effectiveSpeed
  let processingEnd := st.currentTime + totalProcessingHours
  match processingWashLoop washDuration gapDuration firstWashTime st.currentTime
      processingEnd fuel st.lastWashEnd 0 st.tasks with
  | none => none
  | some (tasks1, totalOverlap, lastWashEnd') =>
    let extendedEnd := processingEnd + totalOverlap
    let cutWashes := sortWashes <| (tasks1.filter fun iv =>
        decide (iv.task = Task.wash) &&
        decide (max st.currentTime iv.start < min processingEnd iv.stop)).map
      fun iv => ⟨iv.start, iv.stop⟩
    let walk := segmentWalk (i : Int) row.productName cutWashes st.currentTime
    let tasks2 := tasks1 ++ walk.1
    let tasks3 :=
      if walk.2 < extendedEnd then
        tasks2 ++ [⟨walk.2, extendedEnd, Task.processing, row.productName, (i : Int)⟩]
      else tasks2
    some ⟨extendedEnd, lastWashEnd', tasks3⟩

/-- One iteration of the `for i, row in df.iterrows()` loop: changeover
phase when `i > 0`, then the processing phase. -/
def stepRun (washDuration gapDuration : ℚ) (firstWashTime : Option ℚ)
    (fuel : ℕ) (i : ℕ) (row : Row) (st : SchedState) : Option SchedState :=
  if i = 0 then
    processingPhase washDuration gapDuration firstWashTime fuel i row st
  else
    match changeoverPhase washDuration gapDuration fuel i row.productName row.changeOver st with
    | none => none
    | some st1 => processingPhase washDuration gapDuration firstWashTime fuel i row st1

/-- The product loop, threading the scheduler state through the rows with
their original indices. -/
def runRows (washDuration gapDuration : ℚ) (firstWashTime : Option ℚ) (fuel : ℕ) :
    ℕ → List Row → SchedState → Option SchedState
  | _, [], st => some st
  | i, row :: rest, st =>
    match stepRun washDuration gapDuration firstWashTime fuel i row st with
    | none => none
    | some st1 => runRows washDuration gapDuration firstWashTime fuel (i + 1) rest st1

/-- Source lines 34-76: initial state.  `last_wash_end_time` is seeded with
`first_wash_time` when that column parses (otherwise with the week start),
and when additionally `wash_duration > 0` the pre-anchored wash is committed
with sentinel order `-2` and the seed advances past it. -/
def initState (startTime washDuration : ℚ) (firstWashTime : Option ℚ) : SchedState :=
  match firstWashTime with
  | some t =>
    if 0 < washDuration then
      ⟨startTime, t + washDuration, [⟨t, t + washDuration, Task.wash, "Scheduled Wash", -2⟩]⟩
    else
      ⟨startTime, t, []⟩
  | none => ⟨startTime, startTime, []⟩

/-- Fallback of source lines 36-53: the `Duration` / `Gap` cells are parsed
with `int(...)`; any failure (missing column, unparsable value) makes both
fall back to zero minutes ("Wash cycle will not be scheduled"). -/
def washPolicyOrDefault (parsed : Option (ℤ × ℤ)) : ℤ × ℤ :=
  parsed.getD (0, 0)

/-- The scheduling core of `generate_timeline` (source lines 34-190):
wash duration and gap are given in integer minutes (as parsed on lines
38-41) and converted to hours; the plot-building tail of the source is the
out-of-scope renderer and consumes `tasks` unchanged.  Returns the
committed interval list, or `none` when a wash loop exceeds its fuel
(the source loops forever in that case). -/
def generateTimeline (fuel : ℕ) (startTime : ℚ) (washDurationMins washGapMins : ℤ)
    (firstWashTime : Option ℚ) (rows : List Row) : Option (List Interval) :=
  let washDuration : ℚ := (washDurationMins : ℚ) / 60
  let gapDuration : ℚ := (washGapMins : ℚ) / 60
  match runRows washDuration gapDuration firstWashTime fuel 0 rows
      (initState startTime washDuration firstWashTime) with
  | none => none
  | some st => some st.tasks

/-- The spec's strict overlap test `max(a.start,b.start) < min(a.end,b.end)`
on committed intervals. -/
def overlapsI (a b : Interval) : Prop :=
  max a.start b.start < min a.stop b.stop

instance : DecidableRel overlapsI := fun a b => by
  unfold overlapsI; infer_instance

/-- The spec's no-overlap property over a list of committed intervals:
all pairs are identical in time or do not strictly intersect. -/
def pairwiseNoOverlap (ts : List Interval) : Prop :=
  ∀ a ∈ ts, ∀ b ∈ ts, (a.start = b.start ∧ a.stop = b.stop) ∨ ¬ overlapsI a b

instance (ts : List Interval) : Decidable (pairwiseNoOverlap ts) := by
  unfold pairwiseNoOverlap; infer_instance

/-- The spec's positivity property of claim C4: every emitted interval has
strictly positive duration. -/
def allStrict (ts : List Interval) : Prop :=
  ∀ iv ∈ ts, iv.start < iv.stop

instance (ts : List Interval) : Decidable (allStrict ts) := by
  unfold allStrict; infer_instance

/-- The candidate list of a wash-enumeration result (`[]` when the loop did
not finish). -/
def candidatesOf (o : Option (List Wash × ℚ)) : List Wash :=
  o.elim [] Prod.fst

/-- Compatibility of two committed intervals used by the amended no-overlap
invariant: when both are washes or both are non-washes, they are equal or do
not strictly intersect. -/
def compat (a b : Interval) : Prop :=
  (a.task = Task.wash ↔ b.task = Task.wash) → a = b ∨ ¬ overlapsI a b

/-- The state invariant of the scheduling pass: every committed interval is
well-formed (`start ≤ stop`, strictly so except for changeovers), washes end
at or before the last-wash cursor, non-washes end at or before the current
cursor, and the committed intervals are pairwise compatible (same kind class
implies equal or not strictly intersecting). -/
structure Inv (st : SchedState) : Prop where
  wf : ∀ iv ∈ st.tasks, iv.start ≤ iv.stop
  strict : ∀ iv ∈ st.tasks, iv.task ≠ Task.changeover → iv.start < iv.stop
  washLe : ∀ iv ∈ st.tasks, iv.task = Task.wash → iv.stop ≤ st.lastWashEnd
  nonwashLe : ∀ iv ∈ st.tasks, iv.task ≠ Task.wash → iv.stop ≤ st.currentTime
  pw : st.tasks.Pairwise compat

/-- The one-row plan refuting the unrestricted no-overlap claim: 4 h of
processing, 60 min washes every 90 min. -/
def c1Row : Row := ⟨"P1", 400, 100, 1, 0⟩

/-- The scheduler's output on `c1Row` (wash cycle 60 min / 90 min from
time 0): the second wash is pushed past the nominal processing end, the
segmentation only cuts at washes intersecting the nominal window, and the
final processing segment therefore overlaps the second wash. -/
def c1Out : List Interval :=
  [⟨3/2, 5/2, Task.wash, "Scheduled Wash", -1⟩,
   ⟨4, 5, Task.wash, "Scheduled Wash", -1⟩,
   ⟨0, 3/2, Task.processing, "P1", 0⟩,
   ⟨5/2, 6, Task.processing, "P1", 0⟩]

/-- The two-row plan refuting the strict-positivity claim: the second row
has `Change Over = 0` and the wash gap is far away, so a zero-duration
changeover interval is committed. -/
def c4Rows : List Row := [⟨"P1", 100, 100, 1, 0⟩, ⟨"P2", 100, 100, 1, 0⟩]

/-- The scheduler's output on `c4Rows` with `Duration = 0`, `Gap = 6000`:
it contains the zero-duration changeover `[1, 1)`. -/
def c4Out : List Interval :=
  [⟨0, 1, Task.processing, "P1", 0⟩,
   ⟨1, 1, Task.changeover, "P2", 1⟩,
   ⟨1, 2, Task.processing, "P2", 1⟩]

/-- The two-row plan refuting the unconditional commit claim: a first wash
anchored in the past (−5 h) makes the last-wash cursor lag the global
cursor, so the changeover phase of run 1 enumerates five stale candidates,
none of which intersects the changeover window `[6, 13/2)`. -/
def c5Rows : List Row := [⟨"P1", 600, 100, 1, 0⟩, ⟨"P2", 100, 100, 1, 30⟩]

/-- The state after run 0 of the `c5Rows` plan (wash 60/60, first wash at
−5): the cursor is at 6, the last-wash cursor still at −4. -/
def c5St1 : SchedState :=
  ⟨6, -4, [⟨-5, -4, Task.wash, "Scheduled Wash", -2⟩, ⟨0, 6, Task.processing, "P1", 0⟩]⟩

/-- The final state of the `c5Rows` plan. -/
def c5St2 : SchedState :=
  ⟨8, 8, [⟨-5, -4, Task.wash, "Scheduled Wash", -2⟩, ⟨0, 6, Task.processing, "P1", 0⟩,
    ⟨6, 13/2, Task.changeover, "P2", 1⟩, ⟨7, 8, Task.wash, "Scheduled Wash", -1⟩,
    ⟨13/2, 7, Task.processing, "P2", 1⟩]⟩

/-- The two-row plan refuting the exact-coverage claim: 1 h of processing
per row, 120 min changeover before row 2, wash 30 min every 30 min. -/
def c6Rows : List Row := [⟨"P1", 100, 100, 1, 0⟩, ⟨"P2", 100, 100, 1, 120⟩]

/-- The state after run 0 of the `c6Rows` plan: the run-1 entry cursor is
`3/2`. -/
def c6St1 : SchedState :=
  ⟨3/2, 1, [⟨1/2, 1, Task.wash, "Scheduled Wash", -1⟩,
    ⟨0, 1/2, Task.processing, "P1", 0⟩, ⟨1, 3/2, Task.processing, "P1", 0⟩]⟩

/-- The state after run 1 of the `c6Rows` plan: the changeover of run 1 is
suppressed by the washes `[3/2, 2)` and `[5/2, 3)`, the cursor jumps to 3,
and no interval of any kind covers the gap `[2, 5/2)`. -/
def c6St2 : SchedState :=
  ⟨9/2, 4, [⟨1/2, 1, Task.wash, "Scheduled Wash", -1⟩,
    ⟨0, 1/2, Task.processing, "P1", 0⟩, ⟨1, 3/2, Task.processing, "P1", 0⟩,
    ⟨3/2, 2, Task.wash, "Scheduled Wash", -1⟩, ⟨5/2, 3, Task.wash, "Scheduled Wash", -1⟩,
    ⟨7/2, 4, Task.wash, "Scheduled Wash", -1⟩,
    ⟨3, 7/2, Task.processing, "P2", 1⟩, ⟨4, 9/2, Task.processing, "P2", 1⟩]⟩

/-- The wash-free reference schedule used to state the wash-disabling
property C7: the cursor advances by the changeover duration (for `i > 0`)
and then by the nominal processing duration of each run; a changeover
interval is emitted for every run with `i > 0` (the code commits it even
when zero-length, see C4) and a processing interval exactly when the
nominal span is nonempty. -/
def nominalStep (i : ℕ) (row : Row) (c : ℚ) : List Interval × ℚ :=
  if i = 0 then
    (if c < c + row.quantityLiters / (row.processSpeedPerHour * row.lineEfficiency) then
      [⟨c, c + row.quantityLiters / (row.processSpeedPerHour * row.lineEfficiency),
        Task.processing, row.productName, (i : Int)⟩]
    else [],
     c + row.quantityLiters / (row.processSpeedPerHour * row.lineEfficiency))
  else
    (⟨c, c + row.changeOver / 60, Task.changeover, row.productName, (i : Int)⟩ ::
      (if c + row.changeOver / 60 < c + row.changeOver / 60 +
          row.quantityLiters / (row.processSpeedPerHour * row.lineEfficiency) then
        [⟨c + row.changeOver / 60, c + row.changeOver / 60 +
          row.quantityLiters / (row.processSpeedPerHour * row.lineEfficiency),
          Task.processing, row.productName, (i : Int)⟩]
      else []),
     c + row.changeOver / 60 + row.quantityLiters / (row.processSpeedPerHour * row.lineEfficiency))

/-- The wash-free reference schedule over a row list, with running index. -/
def nominalRows : ℕ → List Row → ℚ → List Interval
  | _, [], _ => []
  | i, row :: rest, c =>
    (nominalStep i row c).1 ++ nominalRows (i + 1) rest (nominalStep i row c).2

/-- The wash-free reference schedule of a whole plan. -/
def nominalTimeline (startTime : ℚ) (rows : List Row) : List Interval :=
  nominalRows 0 rows startTime

theorem compat_symm : Symmetric compat := by
  intro a b h hiff
  rcases h hiff.symm with h1 | h1
  · exact Or.inl h1.symm
  · refine Or.inr fun hc => h1 ?_
    unfold overlapsI at hc ⊢
    rw [max_comm, min_comm]
    exact hc

theorem compat_of_le_start {a b : Interval} (h : a.stop ≤ b.start) : compat a b :=
  fun _ => Or.inr fun hc =>
    absurd hc (not_lt.mpr ((min_le_left _ _).trans (h.trans (le_max_right _ _))))

/-- `maxStop` dominates the head and every element, and is attained. -/
theorem maxStop_spec (w : Wash) (ws : List Wash) :
    w.stop ≤ maxStop w ws ∧ (∀ v ∈ ws, v.stop ≤ maxStop w ws) ∧
      (maxStop w ws = w.stop ∨ ∃ v ∈ ws, maxStop w ws = v.stop) := by
  unfold maxStop
  suffices h : ∀ (l : List Wash) (a : ℚ),
      a ≤ l.foldl (fun acc v => max acc v.stop) a ∧
      (∀ v ∈ l, v.stop ≤ l.foldl (fun acc v => max acc v.stop) a) ∧
      (l.foldl (fun acc v => max acc v.stop) a = a ∨
        ∃ v ∈ l, l.foldl (fun acc v => max acc v.stop) a = v.stop) by
    exact h ws w.stop
  intro l
  induction l with
  | nil => exact fun a => ⟨le_refl a, by simp, Or.inl rfl⟩
  | cons v vs ih =>
    intro a
    obtain ⟨h1, h2, h3⟩ := ih (max a v.stop)
    have hfold : (v :: vs).foldl (fun acc u => max acc u.stop) a
        = vs.foldl (fun acc u => max acc u.stop) (max a v.stop) := rfl
    rw [hfold]
    refine ⟨(le_max_left a v.stop).trans h1, ?_, ?_⟩
    · intro u hu
      rcases List.mem_cons.mp hu with rfl | hu
      · exact (le_max_right a u.stop).trans h1
      · exact h2 u hu
    · rcases h3 with h3 | ⟨u, hu, h3⟩
      · rcases max_choice a v.stop with hm | hm
        · exact Or.inl (h3.trans hm)
        · exact Or.inr ⟨v, List.mem_cons_self .., h3.trans hm⟩
      · exact Or.inr ⟨u, List.mem_cons_of_mem _ hu, h3⟩

theorem mem_insertWash {w v : Wash} {l : List Wash} :
    v ∈ insertWash w l ↔ v = w ∨ v ∈ l := by
  induction l with
  | nil => simp [insertWash]
  | cons u us ih =>
    unfold insertWash
    by_cases h : washLE w u
    · simp [h, List.mem_cons]
    · simp only [h, if_false, List.mem_cons, ih]
      tauto

theorem mem_sortWashes {v : Wash} {l : List Wash} :
    v ∈ sortWashes l ↔ v ∈ l := by
  induction l with
  | nil => simp [sortWashes]
  | cons u us ih => simp [sortWashes, mem_insertWash, ih]

/-- Everything the later proofs need about one changeover-phase wash
enumeration: the last-wash cursor is monotone, each candidate starts at
least one gap after the incoming cursor and before the bound, spans exactly
the wash duration, ends within the final cursor, and the candidates are
chronologically chained. -/
theorem washCandidatesLoop_spec {d g : ℚ} (bound : ℚ) (hd : 0 ≤ d) (hg : 0 ≤ g) :
    ∀ (fuel : ℕ) (lw : ℚ) (cands : List Wash) (lw' : ℚ),
      washCandidatesLoop d g bound fuel lw = some (cands, lw') →
      lw ≤ lw' ∧
      (∀ w ∈ cands, lw + g ≤ w.start ∧ w.start < bound ∧
        w.stop = w.start + d ∧ w.stop ≤ lw') ∧
      cands.Pairwise fun a b => a.stop ≤ b.start := by
  intro fuel
  induction fuel with
  | zero => intro lw cands lw' h; simp [washCandidatesLoop] at h
  | succ n ih =>
    intro lw cands lw' h
    rw [washCandidatesLoop] at h
    by_cases hc : lw + g < bound
    · rw [if_pos hc] at h
      rcases hrec : washCandidatesLoop d g bound n (lw + g + d) with _ | ⟨ws, lwr⟩
      · simp only [hrec] at h
        exact Option.noConfusion h
      · simp only [hrec, Option.some.injEq, Prod.mk.injEq] at h
        obtain ⟨hcands, hlw⟩ := h
        obtain ⟨ih1, ih2, ih3⟩ := ih (lw + g + d) ws lwr hrec
        subst hcands hlw
        refine ⟨by linarith, ?_, ?_⟩
        · intro w hw
          rcases List.mem_cons.mp hw with rfl | hw
          · exact ⟨le_refl _, hc, rfl, by simpa using ih1⟩
          · obtain ⟨hw1, hw2, hw3, hw4⟩ := ih2 w hw
            exact ⟨by linarith, hw2, hw3, hw4⟩
        · refine List.Pairwise.cons ?_ ih3
          intro w hw
          obtain ⟨hw1, _, _, _⟩ := ih2 w hw
          simp only
          linarith
    · rw [if_neg hc] at h
      simp only [Option.some.injEq, Prod.mk.injEq] at h
      obtain ⟨h1, h2⟩ := h
      subst h1 h2
      exact ⟨le_refl _, by simp, List.Pairwise.nil⟩

/-- Everything the later proofs need about one processing-phase wash loop:
the cursors are monotone, the appended intervals are all washes one gap
after the incoming cursor, of positive length exactly the wash duration,
ending within the final cursor, chronologically chained. -/
theorem processingWashLoop_spec {d g : ℚ} (fw : Option ℚ) (c pe : ℚ)
    (hd : 0 ≤ d) (hg : 0 ≤ g) :
    ∀ (fuel : ℕ) (lw tot : ℚ) (tasks tasks' : List Interval) (tot' lw' : ℚ),
      processingWashLoop d g fw c pe fuel lw tot tasks = some (tasks', tot', lw') →
      lw ≤ lw' ∧ tot ≤ tot' ∧
      ∃ news, tasks' = tasks ++ news ∧
        (∀ iv ∈ news, iv.task = Task.wash ∧ iv.product = "Scheduled Wash" ∧
          iv.order = -1 ∧ lw + g ≤ iv.start ∧ iv.stop = iv.start + d ∧
          iv.start < iv.stop ∧ iv.stop ≤ lw') ∧
        news.Pairwise fun a b => a.stop ≤ b.start := by
  intro fuel
  induction fuel with
  | zero => intro lw tot tasks tasks' tot' lw' h; simp [processingWashLoop] at h
  | succ n ih =>
    intro lw tot tasks tasks' tot' lw' h
    rw [processingWashLoop] at h
    by_cases hc : lw + g < pe + tot
    · rw [if_pos hc] at h
      by_cases ho : max c (lw + g) < min (pe + tot) (lw + g + d)
      · rw [if_pos ho] at h
        have hlen : lw + g < lw + g + d := by
          have h1 : lw + g ≤ max c (lw + g) := le_max_right _ _
          have h2 : min (pe + tot) (lw + g + d) ≤ lw + g + d := min_le_right _ _
          linarith
        obtain ⟨ih1, ih2, news, hnews, hfacts, hpw⟩ :=
          ih (lw + g + d) (tot + (min (pe + tot) (lw + g + d) - max c (lw + g))) _ _ _ _ h
        have htot : tot ≤ tot' := by
          have : max c (lw + g) < min (pe + tot) (lw + g + d) := ho
          linarith
        have hlw : lw ≤ lw' := by linarith
        by_cases hskip : fw = some (lw + g)
        · rw [if_pos hskip] at hnews
          refine ⟨hlw, htot, news, hnews, ?_, hpw⟩
          intro iv hiv
          obtain ⟨f1, f2, f3, f4, f5, f6, f7⟩ := hfacts iv hiv
          exact ⟨f1, f2, f3, by linarith, f5, f6, f7⟩
        · rw [if_neg hskip] at hnews
          rw [List.append_assoc] at hnews
          refine ⟨hlw, htot, _ :: news, hnews, ?_, ?_⟩
          · intro iv hiv
            rcases List.mem_cons.mp hiv with rfl | hiv
            · exact ⟨rfl, rfl, rfl, le_refl _, rfl, hlen, by simpa using ih1⟩
            · obtain ⟨f1, f2, f3, f4, f5, f6, f7⟩ := hfacts iv hiv
              exact ⟨f1, f2, f3, by linarith, f5, f6, f7⟩
          · refine List.Pairwise.cons ?_ hpw
            intro iv hiv
            obtain ⟨_, _, _, f4, _, _, _⟩ := hfacts iv hiv
            simp only
            linarith
      · rw [if_neg ho] at h
        simp only [Option.some.injEq, Prod.mk.injEq] at h
        obtain ⟨h1, h2, h3⟩ := h
        subst h1 h2 h3
        exact ⟨le_refl _, le_refl _, [], by simp, by simp, List.Pairwise.nil⟩
    · rw [if_neg hc] at h
      simp only [Option.some.injEq, Prod.mk.injEq] at h
      obtain ⟨h1, h2, h3⟩ := h
      subst h1 h2 h3
      exact ⟨le_refl _, le_refl _, [], by simp, by simp, List.Pairwise.nil⟩

/-- Everything the later proofs need about the segmentation walk: the final
cursor is monotone, every emitted segment is a processing interval of the
given run lying between the incoming cursor and the final cursor, ending
strictly before `pe` (each segment ends at the start of a cut wash, and all
cut washes start before `pe`), and the segments are chronologically
chained. -/
theorem segmentWalk_spec (i : Int) (name : String) (c0 pe : ℚ) :
    ∀ (ws : List Wash) (cur : ℚ),
      (∀ w ∈ ws, max c0 w.start < min pe w.stop) →
      cur ≤ (segmentWalk i name ws cur).2 ∧
      (∀ s ∈ (segmentWalk i name ws cur).1,
        s.task = Task.processing ∧ s.product = name ∧ s.order = i ∧
        cur ≤ s.start ∧ s.start < s.stop ∧ s.stop < pe ∧
        s.stop ≤ (segmentWalk i name ws cur).2) ∧
      (segmentWalk i name ws cur).1.Pairwise fun a b => a.stop ≤ b.start := by
  intro ws
  induction ws with
  | nil => intro cur _; exact ⟨le_refl _, by simp [segmentWalk], by simp [segmentWalk]⟩
  | cons w ws ih =>
    intro cur hws
    have hw := hws w (List.mem_cons_self ..)
    have hwse : w.start < w.stop :=
      lt_of_le_of_lt (le_max_right c0 w.start) (lt_of_lt_of_le hw (min_le_right _ _))
    have hwpe : w.start < pe :=
      lt_of_le_of_lt (le_max_right c0 w.start) (lt_of_lt_of_le hw (min_le_left _ _))
    obtain ⟨ih1, ih2, ih3⟩ := ih (max cur w.stop) fun v hv => hws v (List.mem_cons_of_mem _ hv)
    have hcur : cur ≤ max cur w.stop := le_max_left _ _
    have hwalk : segmentWalk i name (w :: ws) cur =
        ((if cur < w.start then [⟨cur, w.start, Task.processing, name, i⟩] else []) ++
          (segmentWalk i name ws (max cur w.stop)).1,
         (segmentWalk i name ws (max cur w.stop)).2) := rfl
    rw [hwalk]
    refine ⟨le_trans hcur ih1, ?_, ?_⟩
    · intro s hs
      rcases List.mem_append.mp hs with hs | hs
      · by_cases hg : cur < w.start
        · rw [if_pos hg] at hs
          rcases List.mem_singleton.mp hs with rfl
          refine ⟨rfl, rfl, rfl, le_refl _, hg, hwpe, ?_⟩
          have : w.start ≤ max cur w.stop := le_trans hwse.le (le_max_right _ _)
          exact le_trans this ih1
        · rw [if_neg hg] at hs
          exact absurd hs (List.not_mem_nil _)
      · obtain ⟨f1, f2, f3, f4, f5, f6, f7⟩ := ih2 s hs
        exact ⟨f1, f2, f3, le_trans hcur f4, f5, f6, f7⟩
    · rw [List.pairwise_append]
      refine ⟨?_, ih3, ?_⟩
      · by_cases hg : cur < w.start
        · rw [if_pos hg]; simp
        · rw [if_neg hg]; simp
      · intro a ha b hb
        by_cases hg : cur < w.start
        · rw [if_pos hg] at ha
          rcases List.mem_singleton.mp ha with rfl
          obtain ⟨_, _, _, f4, _, _, _⟩ := ih2 b hb
          simp only
          have : w.start ≤ max cur w.stop := le_trans hwse.le (le_max_right _ _)
          linarith
        · rw [if_neg hg] at ha
          exact absurd ha (List.not_mem_nil _)

/-- Coverage of the segmentation walk: every time point from the incoming
cursor up to the final cursor lies in an emitted segment or in one of the
walked washes. -/
theorem segmentWalk_cover (i : Int) (name : String) :
    ∀ (ws : List Wash) (cur x : ℚ),
      cur ≤ x → x < (segmentWalk i name ws cur).2 →
      (∃ s ∈ (segmentWalk i name ws cur).1, s.start ≤ x ∧ x < s.stop) ∨
      (∃ w ∈ ws, w.start ≤ x ∧ x < w.stop) := by
  intro ws
  induction ws with
  | nil =>
    intro cur x hx1 hx2
    exact absurd hx2 (by simp [segmentWalk]; linarith)
  | cons w ws ih =>
    intro cur x hx1 hx2
    have hwalk : segmentWalk i name (w :: ws) cur =
        ((if cur < w.start then [⟨cur, w.start, Task.processing, name, i⟩] else []) ++
          (segmentWalk i name ws (max cur w.stop)).1,
         (segmentWalk i name ws (max cur w.stop)).2) := rfl
    rw [hwalk]
    by_cases hcur : max cur w.stop ≤ x
    · rcases ih (max cur w.stop) x hcur (by rw [hwalk] at hx2; exact hx2) with
        ⟨s, hs, hcov⟩ | ⟨v, hv, hcov⟩
      · exact Or.inl ⟨s, List.mem_append_right _ hs, hcov⟩
      · exact Or.inr ⟨v, List.mem_cons_of_mem _ hv, hcov⟩
    · push_neg at hcur
      by_cases hseg : x < w.start
      · have hg : cur < w.start := lt_of_le_of_lt hx1 hseg
        refine Or.inl ⟨⟨cur, w.start, Task.processing, name, i⟩, ?_, hx1, hseg⟩
        rw [if_pos hg]
        exact List.mem_append_left _ (List.mem_singleton.mpr rfl)
      · push_neg at hseg
        refine Or.inr ⟨w, List.mem_cons_self .., hseg, ?_⟩
        rcases max_cases cur w.stop with ⟨hm, _⟩ | ⟨hm, _⟩
        · rw [hm] at hcur; exact absurd hx1 (not_le.mpr hcur)
        · rw [hm] at hcur; exact hcur

theorem compat_of_wash_nonwash {a b : Interval}
    (ha : a.task = Task.wash) (hb : b.task ≠ Task.wash) : compat a b :=
  fun hiff => absurd (hiff.mp ha) hb

theorem compat_of_nonwash_wash {a b : Interval}
    (ha : a.task ≠ Task.wash) (hb : b.task = Task.wash) : compat a b :=
  fun hiff => absurd (hiff.mpr hb) ha

/-- Appending a block of new intervals that respects the cursor discipline
preserves the invariant. -/
theorem Inv.append {st : SchedState} {c' lw' : ℚ} {news : List Interval}
    (hI : Inv st) (hc : st.currentTime ≤ c') (hlw : st.lastWashEnd ≤ lw')
    (hwf : ∀ iv ∈ news, iv.start ≤ iv.stop)
    (hstrict : ∀ iv ∈ news, iv.task ≠ Task.changeover → iv.start < iv.stop)
    (hwashLe : ∀ iv ∈ news, iv.task = Task.wash → iv.stop ≤ lw')
    (hnonwashLe : ∀ iv ∈ news, iv.task ≠ Task.wash → iv.stop ≤ c')
    (hstart : ∀ iv ∈ news, (iv.task = Task.wash → st.lastWashEnd ≤ iv.start) ∧
      (iv.task ≠ Task.wash → st.currentTime ≤ iv.start))
    (hpwnews : news.Pairwise compat) :
    Inv ⟨c', lw', st.tasks ++ news⟩ := by
  refine ⟨?_, ?_, ?_, ?_, ?_⟩
  · intro iv hiv
    rcases List.mem_append.mp hiv with hiv | hiv
    · exact hI.wf iv hiv
    · exact hwf iv hiv
  · intro iv hiv
    rcases List.mem_append.mp hiv with hiv | hiv
    · exact hI.strict iv hiv
    · exact hstrict iv hiv
  · intro iv hiv
    rcases List.mem_append.mp hiv with hiv | hiv
    · exact fun hw => le_trans (hI.washLe iv hiv hw) hlw
    · exact hwashLe iv hiv
  · intro iv hiv
    rcases List.mem_append.mp hiv with hiv | hiv
    · exact fun hw => le_trans (hI.nonwashLe iv hiv hw) hc
    · exact hnonwashLe iv hiv
  · rw [List.pairwise_append]
    refine ⟨hI.pw, hpwnews, ?_⟩
    intro a ha b hb
    by_cases haw : a.task = Task.wash
    · by_cases hbw : b.task = Task.wash
      · exact compat_of_le_start
          (le_trans (hI.washLe a ha haw) ((hstart b hb).1 hbw))
      · exact compat_of_wash_nonwash haw hbw
    · by_cases hbw : b.task = Task.wash
      · exact compat_of_nonwash_wash haw hbw
      · exact compat_of_le_start
          (le_trans (hI.nonwashLe a ha haw) ((hstart b hb).2 hbw))

/-- The changeover phase preserves the invariant, advances both cursors, and
only appends intervals; new washes start at least one gap after the incoming
last-wash cursor. -/
theorem changeoverPhase_inv {d g co : ℚ} (fuel i : ℕ) (name : String)
    {st st' : SchedState} (hd : 0 ≤ d) (hg : 0 ≤ g) (hco : 0 ≤ co) (hI : Inv st)
    (h : changeoverPhase d g fuel i name co st = some st') :
    Inv st' ∧ st.currentTime ≤ st'.currentTime ∧ st.lastWashEnd ≤ st'.lastWashEnd ∧
      ∃ news, st'.tasks = st.tasks ++ news ∧
        ∀ iv ∈ news, iv.task = Task.wash → st.lastWashEnd + g ≤ iv.start := by
  unfold changeoverPhase at h
  rcases hwc : washCandidatesLoop d g (st.currentTime + co / 60) fuel st.lastWashEnd with
    _ | ⟨cands, lw'⟩
  · simp only [hwc] at h
    exact Option.noConfusion h
  · simp only [hwc] at h
    obtain ⟨hm1, hm2, hm3⟩ := washCandidatesLoop_spec _ hd hg fuel _ _ _ hwc
    by_cases hA : cands.any (fun w =>
        decide (max st.currentTime w.start < min (st.currentTime + co / 60) w.stop)) = true
    · rw [if_pos hA] at h
      obtain ⟨wo, hwo, hwoov⟩ := List.any_eq_true.mp hA
      rw [decide_eq_true_eq] at hwoov
      have hdpos : 0 < d := by
        obtain ⟨_, _, hstop, _⟩ := hm2 wo hwo
        have h1 : wo.start ≤ max st.currentTime wo.start := le_max_right _ _
        have h2 : min (st.currentTime + co / 60) wo.stop ≤ wo.stop := min_le_right _ _
        have : wo.start < wo.stop := by linarith
        rw [hstop] at this
        linarith
      have hwomem : wo ∈ cands.filter fun w =>
          decide (max st.currentTime w.start < min (st.currentTime + co / 60) w.stop) :=
        List.mem_filter.mpr ⟨hwo, decide_eq_true hwoov⟩
      rcases hov : cands.filter (fun w =>
          decide (max st.currentTime w.start < min (st.currentTime + co / 60) w.stop)) with
        _ | ⟨w0, ovs⟩
      · rw [hov] at hwomem; exact absurd hwomem (List.not_mem_nil _)
      · simp only [hov] at h
        obtain ⟨hms1, hms2, hms3⟩ := maxStop_spec w0 ovs
        have hcc : st.currentTime < maxStop w0 ovs := by
          rw [hov] at hwomem
          have hwost : st.currentTime < wo.stop := by
            have h1 : st.currentTime ≤ max st.currentTime wo.start := le_max_left _ _
            have h2 : min (st.currentTime + co / 60) wo.stop ≤ wo.stop := min_le_right _ _
            linarith
          rcases List.mem_cons.mp hwomem with rfl | hwomem
          · linarith
          · exact lt_of_lt_of_le hwost (hms2 wo hwomem)
        obtain rfl := Option.some_inj.mp h
        refine ⟨?_, hcc.le, hm1, cands.map washInterval, rfl, ?_⟩
        · refine hI.append hcc.le hm1 ?_ ?_ ?_ ?_ ?_ ?_
          · intro iv hiv
            obtain ⟨w, hw, rfl⟩ := List.mem_map.mp hiv
            obtain ⟨_, _, hstop, _⟩ := hm2 w hw
            show w.start ≤ w.stop
            rw [hstop]; linarith
          · intro iv hiv _
            obtain ⟨w, hw, rfl⟩ := List.mem_map.mp hiv
            obtain ⟨_, _, hstop, _⟩ := hm2 w hw
            show w.start < w.stop
            rw [hstop]; linarith
          · intro iv hiv _
            obtain ⟨w, hw, rfl⟩ := List.mem_map.mp hiv
            obtain ⟨_, _, _, hle⟩ := hm2 w hw
            exact hle
          · intro iv hiv hnw
            obtain ⟨w, hw, rfl⟩ := List.mem_map.mp hiv
            exact absurd rfl hnw
          · intro iv hiv
            obtain ⟨w, hw, rfl⟩ := List.mem_map.mp hiv
            obtain ⟨hge, _, _, _⟩ := hm2 w hw
            exact ⟨fun _ => by show st.lastWashEnd ≤ w.start; linarith,
              fun hnw => absurd rfl hnw⟩
          · rw [List.pairwise_map]
            exact hm3.imp fun hab => compat_of_le_start hab
        · intro iv hiv _
          obtain ⟨w, hw, rfl⟩ := List.mem_map.mp hiv
          obtain ⟨hge, _, _, _⟩ := hm2 w hw
          exact hge
    · rw [if_neg hA] at h
      obtain rfl := Option.some_inj.mp h
      have hce : st.currentTime ≤ st.currentTime + co / 60 := by
        have : (0 : ℚ) ≤ co / 60 := by positivity
        linarith
      refine ⟨?_, hce, hm1, _, rfl, ?_⟩
      · refine hI.append hce hm1 ?_ ?_ ?_ ?_ ?_ ?_
        · intro iv hiv
          rcases List.mem_singleton.mp hiv with rfl
          exact hce
        · intro iv hiv hnc
          rcases List.mem_singleton.mp hiv with rfl
          exact absurd rfl hnc
        · intro iv hiv hw
          rcases List.mem_singleton.mp hiv with rfl
          exact absurd hw (by simp)
        · intro iv hiv _
          rcases List.mem_singleton.mp hiv with rfl
          exact le_refl _
        · intro iv hiv
          rcases List.mem_singleton.mp hiv with rfl
          exact ⟨fun hw => absurd hw (by simp), fun _ => le_refl _⟩
        · simp
      · intro iv hiv hw
        rcases List.mem_singleton.mp hiv with rfl
        exact absurd hw (by simp)

/-- Every cut wash of the segmentation input strictly intersects the nominal
processing window. -/
theorem cutWashes_intersect (c pe : ℚ) (tasks1 : List Interval) :
    ∀ w ∈ sortWashes ((tasks1.filter fun iv =>
        decide (iv.task = Task.wash) &&
        decide (max c iv.start < min pe iv.stop)).map
      fun iv => (⟨iv.start, iv.stop⟩ : Wash)),
      max c w.start < min pe w.stop := by
  intro w hw
  rw [mem_sortWashes] at hw
  obtain ⟨iv, hiv, rfl⟩ := List.mem_map.mp hw
  obtain ⟨_, hcond⟩ := List.mem_filter.mp hiv
  rw [Bool.and_eq_true, decide_eq_true_eq, decide_eq_true_eq] at hcond
  exact hcond.2

/-- The processing phase preserves the invariant, advances both cursors, and
only appends intervals; new washes start at least one gap after the incoming
last-wash cursor. -/
theorem processingPhase_inv {d g : ℚ} (fw : Option ℚ) (fuel i : ℕ) {row : Row}
    {st st' : SchedState} (hd : 0 ≤ d) (hg : 0 ≤ g)
    (hh : 0 ≤ row.quantityLiters / (row.processSpeedPerHour * row.lineEfficiency))
    (hI : Inv st)
    (h : processingPhase d g fw fuel i row st = some st') :
    Inv st' ∧ st.currentTime ≤ st'.currentTime ∧ st.lastWashEnd ≤ st'.lastWashEnd ∧
      ∃ news, st'.tasks = st.tasks ++ news ∧
        ∀ iv ∈ news, iv.task = Task.wash → st.lastWashEnd + g ≤ iv.start := by
  unfold processingPhase at h
  rcases hpl : processingWashLoop d g fw st.currentTime
      (st.currentTime + row.quantityLiters / (row.processSpeedPerHour * row.lineEfficiency))
      fuel st.lastWashEnd 0 st.tasks with _ | ⟨tasks1, tot', lw'⟩
  · simp only [hpl] at h
    exact Option.noConfusion h
  · simp only [hpl] at h
    obtain rfl := Option.some_inj.mp h
    obtain ⟨hl1, hl2, news1, htasks1, hfacts1, hpw1⟩ :=
      processingWashLoop_spec fw st.currentTime _ hd hg fuel _ _ _ _ _ _ hpl
    have hpe : st.currentTime ≤
        st.currentTime + row.quantityLiters / (row.processSpeedPerHour * row.lineEfficiency) := by
      linarith
    have hext : st.currentTime + row.quantityLiters /
        (row.processSpeedPerHour * row.lineEfficiency) ≤
        st.currentTime + row.quantityLiters /
          (row.processSpeedPerHour * row.lineEfficiency) + tot' := by
      linarith
    obtain ⟨hw1, hw2, hw3⟩ := segmentWalk_spec (i : Int) row.productName st.currentTime
      (st.currentTime + row.quantityLiters / (row.processSpeedPerHour * row.lineEfficiency))
      (sortWashes ((tasks1.filter fun iv =>
        decide (iv.task = Task.wash) &&
        decide (max st.currentTime iv.start <
          min (st.currentTime + row.quantityLiters /
            (row.processSpeedPerHour * row.lineEfficiency)) iv.stop)).map
        fun iv => (⟨iv.start, iv.stop⟩ : Wash)))
      st.currentTime (cutWashes_intersect _ _ tasks1)
    set pe := st.currentTime + row.quantityLiters /
      (row.processSpeedPerHour * row.lineEfficiency) with hpedef
    set cut := sortWashes ((tasks1.filter fun iv =>
        decide (iv.task = Task.wash) &&
        decide (max st.currentTime iv.start < min pe iv.stop)).map
      fun iv => (⟨iv.start, iv.stop⟩ : Wash)) with hcutdef
    set W := segmentWalk (i : Int) row.productName cut st.currentTime with hWdef
    set segs : List Interval :=
      W.1 ++ (if W.2 < pe + tot' then
        [⟨W.2, pe + tot', Task.processing, row.productName, (i : Int)⟩] else []) with hsegs
    have htasks3 : (if W.2 < pe + tot' then
        (tasks1 ++ W.1) ++ [⟨W.2, pe + tot', Task.processing, row.productName, (i : Int)⟩]
        else tasks1 ++ W.1) = st.tasks ++ (news1 ++ segs) := by
      rw [hsegs, htasks1]
      by_cases hfin : W.2 < pe + tot'
      · rw [if_pos hfin, if_pos hfin]
        simp [List.append_assoc]
      · rw [if_neg hfin, if_neg hfin]
        simp [List.append_assoc]
    have hsegfacts : ∀ s ∈ segs, s.task = Task.processing ∧ s.order = (i : Int) ∧
        st.currentTime ≤ s.start ∧ s.start < s.stop ∧ s.stop ≤ pe + tot' := by
      intro s hs
      rw [hsegs] at hs
      rcases List.mem_append.mp hs with hs | hs
      · obtain ⟨f1, _, f3, f4, f5, f6, _⟩ := hw2 s hs
        exact ⟨f1, f3, f4, f5, by linarith⟩
      · by_cases hfin : W.2 < pe + tot'
        · rw [if_pos hfin] at hs
          rcases List.mem_singleton.mp hs with rfl
          exact ⟨rfl, rfl, hw1, hfin, le_refl _⟩
        · rw [if_neg hfin] at hs
          exact absurd hs (List.not_mem_nil _)
      -- (the auxiliary goal below discharges the walk-side bound)
    have hsegspw : segs.Pairwise compat := by
      rw [hsegs, List.pairwise_append]
      refine ⟨hw3.imp fun hab => compat_of_le_start hab, ?_, ?_⟩
      · by_cases hfin : W.2 < pe + tot'
        · rw [if_pos hfin]; simp
        · rw [if_neg hfin]; simp
      · intro a ha b hb
        by_cases hfin : W.2 < pe + tot'
        · rw [if_pos hfin] at hb
          rcases List.mem_singleton.mp hb with rfl
          obtain ⟨_, _, _, _, _, _, f7⟩ := hw2 a ha
          exact compat_of_le_start f7
        · rw [if_neg hfin] at hb
          exact absurd hb (List.not_mem_nil _)
    rw [htasks3]
    have hcc : st.currentTime ≤ pe + tot' := le_trans hpe hext
    refine ⟨?_, hcc, hl1, news1 ++ segs, rfl, ?_⟩
    · refine hI.append hcc hl1 ?_ ?_ ?_ ?_ ?_ ?_
      · intro iv hiv
        rcases List.mem_append.mp hiv with hiv | hiv
        · obtain ⟨_, _, _, _, _, f6, _⟩ := hfacts1 iv hiv
          exact f6.le
        · obtain ⟨_, _, _, f4, _⟩ := hsegfacts iv hiv
          exact f4.le
      · intro iv hiv _
        rcases List.mem_append.mp hiv with hiv | hiv
        · obtain ⟨_, _, _, _, _, f6, _⟩ := hfacts1 iv hiv
          exact f6
        · obtain ⟨_, _, _, f4, _⟩ := hsegfacts iv hiv
          exact f4
      · intro iv hiv hw
        rcases List.mem_append.mp hiv with hiv | hiv
        · obtain ⟨_, _, _, _, _, _, f7⟩ := hfacts1 iv hiv
          exact f7
        · obtain ⟨f1, _⟩ := hsegfacts iv hiv
          rw [f1] at hw
          exact absurd hw (by simp)
      · intro iv hiv hnw
        rcases List.mem_append.mp hiv with hiv | hiv
        · obtain ⟨f1, _⟩ := hfacts1 iv hiv
          exact absurd f1 hnw
        · obtain ⟨_, _, _, _, f5⟩ := hsegfacts iv hiv
          exact f5
      · intro iv hiv
        rcases List.mem_append.mp hiv with hiv | hiv
        · obtain ⟨f1, _, _, f4, _, _, _⟩ := hfacts1 iv hiv
          refine ⟨fun _ => by linarith, fun hnw => absurd f1 hnw⟩
        · obtain ⟨f1, _, f3, _, _⟩ := hsegfacts iv hiv
          refine ⟨fun hw => ?_, fun _ => f3⟩
          rw [f1] at hw
          exact absurd hw (by simp)
      · rw [List.pairwise_append]
        refine ⟨hpw1.imp fun hab => compat_of_le_start hab, hsegspw, ?_⟩
        intro a ha b hb
        obtain ⟨f1, _⟩ := hfacts1 a ha
        obtain ⟨g1, _⟩ := hsegfacts b hb
        exact compat_of_wash_nonwash f1 (by rw [g1]; simp)
    · intro iv hiv hw
      rcases List.mem_append.mp hiv with hiv | hiv
      · obtain ⟨_, _, _, f4, _, _, _⟩ := hfacts1 iv hiv
        exact f4
      · obtain ⟨f1, _⟩ := hsegfacts iv hiv
        rw [f1] at hw
        exact absurd hw (by simp)

/-- One full run (changeover phase for `i > 0`, then processing phase)
preserves the invariant, advances both cursors, and only appends; new washes
start at least one gap after the incoming last-wash cursor. -/
theorem stepRun_inv {d g : ℚ} (fw : Option ℚ) (fuel i : ℕ) {row : Row}
    {st st' : SchedState} (hd : 0 ≤ d) (hg : 0 ≤ g) (hco : 0 ≤ row.changeOver)
    (hh : 0 ≤ row.quantityLiters / (row.processSpeedPerHour * row.lineEfficiency))
    (hI : Inv st) (h : stepRun d g fw fuel i row st = some st') :
    Inv st' ∧ st.currentTime ≤ st'.currentTime ∧ st.lastWashEnd ≤ st'.lastWashEnd ∧
      ∃ news, st'.tasks = st.tasks ++ news ∧
        ∀ iv ∈ news, iv.task = Task.wash → st.lastWashEnd + g ≤ iv.start := by
  unfold stepRun at h
  by_cases hi : i = 0
  · rw [if_pos hi] at h
    exact processingPhase_inv fw fuel i hd hg hh hI h
  · rw [if_neg hi] at h
    rcases hcp : changeoverPhase d g fuel i row.productName row.changeOver st with _ | st1
    · simp only [hcp] at h
      exact Option.noConfusion h
    · simp only [hcp] at h
      obtain ⟨hI1, hc1, hlw1, news1, ht1, hn1⟩ := changeoverPhase_inv fuel i _ hd hg hco hI hcp
      obtain ⟨hI2, hc2, hlw2, news2, ht2, hn2⟩ := processingPhase_inv fw fuel i hd hg hh hI1 h
      refine ⟨hI2, le_trans hc1 hc2, le_trans hlw1 hlw2, news1 ++ news2, ?_, ?_⟩
      · rw [ht2, ht1, List.append_assoc]
      · intro iv hiv hw
        rcases List.mem_append.mp hiv with hiv | hiv
        · exact hn1 iv hiv hw
        · have := hn2 iv hiv hw
          linarith

/-- The initial state satisfies the invariant (the pre-anchored wash is only
committed when the wash duration is strictly positive). -/
theorem initState_inv (startTime d : ℚ) (fw : Option ℚ) :
    Inv (initState startTime d fw) := by
  rcases fw with _ | t
  · exact ⟨by simp [initState], by simp [initState], by simp [initState],
      by simp [initState], by simp [initState]⟩
  · simp only [initState]
    by_cases hd : 0 < d
    · rw [if_pos hd]
      refine ⟨?_, ?_, ?_, ?_, ?_⟩
      · intro iv hiv
        rcases List.mem_singleton.mp hiv with rfl
        show t ≤ t + d
        linarith
      · intro iv hiv _
        rcases List.mem_singleton.mp hiv with rfl
        show t < t + d
        linarith
      · intro iv hiv _
        rcases List.mem_singleton.mp hiv with rfl
        exact le_refl _
      · intro iv hiv hnw
        rcases List.mem_singleton.mp hiv with rfl
        exact absurd rfl hnw
      · simp
    · rw [if_neg hd]
      exact ⟨by simp, by simp, by simp, by simp, by simp⟩

/-- The whole product loop preserves the invariant, advances both cursors,
and only appends; new washes start at least one gap after the incoming
last-wash cursor. -/
theorem runRows_inv {d g : ℚ} (fw : Option ℚ) (fuel : ℕ) (hd : 0 ≤ d) (hg : 0 ≤ g) :
    ∀ (rows : List Row) (i : ℕ) (st st' : SchedState),
      (∀ r ∈ rows, 0 ≤ r.changeOver ∧
        0 ≤ r.quantityLiters / (r.processSpeedPerHour * r.lineEfficiency)) →
      Inv st → runRows d g fw fuel i rows st = some st' →
      Inv st' ∧ st.currentTime ≤ st'.currentTime ∧ st.lastWashEnd ≤ st'.lastWashEnd ∧
        ∃ news, st'.tasks = st.tasks ++ news ∧
          ∀ iv ∈ news, iv.task = Task.wash → st.lastWashEnd + g ≤ iv.start := by
  intro rows
  induction rows with
  | nil =>
    intro i st st' _ hI h
    rw [runRows] at h
    obtain rfl := Option.some_inj.mp h
    exact ⟨hI, le_refl _, le_refl _, [], by simp, by simp⟩
  | cons row rest ih =>
    intro i st st' hrows hI h
    rw [runRows] at h
    rcases hstep : stepRun d g fw fuel i row st with _ | st1
    · simp only [hstep] at h
      exact Option.noConfusion h
    · simp only [hstep] at h
      obtain ⟨hco, hh⟩ := hrows row (List.mem_cons_self ..)
      obtain ⟨hI1, hc1, hlw1, news1, ht1, hn1⟩ := stepRun_inv fw fuel i hd hg hco hh hI hstep
      obtain ⟨hI2, hc2, hlw2, news2, ht2, hn2⟩ :=
        ih (i + 1) st1 st' (fun r hr => hrows r (List.mem_cons_of_mem _ hr)) hI1 h
      refine ⟨hI2, le_trans hc1 hc2, le_trans hlw1 hlw2, news1 ++ news2, ?_, ?_⟩
      · rw [ht2, ht1, List.append_assoc]
      · intro iv hiv hw
        rcases List.mem_append.mp hiv with hiv | hiv
        · exact hn1 iv hiv hw
        · have := hn2 iv hiv hw
          linarith

/-- The full scheduling pass establishes the invariant on its output when
the wash policy is non-negative and every row has non-negative changeover
and non-negative nominal processing time. -/
theorem generateTimeline_inv {fuel : ℕ} {startTime : ℚ} {durMins gapMins : ℤ}
    {fw : Option ℚ} {rows : List Row} {ts : List Interval}
    (hdur : 0 ≤ durMins) (hgap : 0 ≤ gapMins)
    (hrows : ∀ r ∈ rows, 0 ≤ r.changeOver ∧
      0 ≤ r.quantityLiters / (r.processSpeedPerHour * r.lineEfficiency))
    (h : generateTimeline fuel startTime durMins gapMins fw rows = some ts) :
    (∀ iv ∈ ts, iv.start ≤ iv.stop ∧ (iv.task ≠ Task.changeover → iv.start < iv.stop)) ∧
      ts.Pairwise compat := by
  unfold generateTimeline at h
  rcases hrun : runRows ((durMins : ℚ) / 60) ((gapMins : ℚ) / 60) fw fuel 0 rows
      (initState startTime ((durMins : ℚ) / 60) fw) with _ | stF
  · simp only [hrun] at h
    exact Option.noConfusion h
  · simp only [hrun] at h
    obtain rfl := Option.some_inj.mp h
    have hd : (0 : ℚ) ≤ (durMins : ℚ) / 60 := by
      have : (0 : ℚ) ≤ (durMins : ℚ) := by exact_mod_cast hdur
      positivity
    have hg : (0 : ℚ) ≤ (gapMins : ℚ) / 60 := by
      have : (0 : ℚ) ≤ (gapMins : ℚ) := by exact_mod_cast hgap
      positivity
    obtain ⟨hIF, _, _, _⟩ := runRows_inv fw fuel hd hg rows 0 _ stF hrows
      (initState_inv startTime _ fw) hrun
    exact ⟨fun iv hiv => ⟨hIF.wf iv hiv, hIF.strict iv hiv⟩, hIF.pw⟩

/-- C1 counterexample: on the concrete plan `[c1Row]` with `Duration = 60`,
`Gap = 90`, `Date from = 0`, the committed intervals are `c1Out`, and the
no-overlap property fails: the final processing segment `[5/2, 6)` strictly
intersects the committed wash `[4, 5)` without being identical to it. -/
theorem c1_counterexample :
    generateTimeline 10 0 60 90 none [c1Row] = some c1Out ∧ ¬ pairwiseNoOverlap c1Out := by
  constructor
  · with_unfolding_all decide
  · with_unfolding_all decide

/-- C1 amended: for a well-formed plan (non-negative wash duration and gap,
non-negative changeover and nominal processing time per row), any two
committed intervals of the same kind class — both washes, or both
non-washes (processing or changeover) — are equal or do not strictly
intersect.  A wash interval may still overlap a processing segment or a
changeover of another class, as the counterexample shows. -/
theorem c1_no_overlap_amended (fuel : ℕ) (startTime : ℚ) (durMins gapMins : ℤ)
    (fw : Option ℚ) (rows : List Row) (ts : List Interval)
    (hdur : 0 ≤ durMins) (hgap : 0 ≤ gapMins)
    (hrows : ∀ r ∈ rows, 0 ≤ r.changeOver ∧
      0 ≤ r.quantityLiters / (r.processSpeedPerHour * r.lineEfficiency))
    (h : generateTimeline fuel startTime durMins gapMins fw rows = some ts) :
    ∀ a ∈ ts, ∀ b ∈ ts, (a.task = Task.wash ↔ b.task = Task.wash) →
      a = b ∨ ¬ overlapsI a b := by
  obtain ⟨_, hpw⟩ := generateTimeline_inv hdur hgap hrows h
  intro a ha b hb hiff
  by_cases hab : a = b
  · exact Or.inl hab
  · exact hpw.forall compat_symm ha hb hab hiff

/-- C1 amended witness: the amended no-overlap theorem applies to the
concrete counterexample plan. -/
theorem c1_no_overlap_amended_witness :
    ((0 : ℤ) ≤ 60 ∧ (0 : ℤ) ≤ 90 ∧
      (∀ r ∈ [c1Row], 0 ≤ r.changeOver ∧
        0 ≤ r.quantityLiters / (r.processSpeedPerHour * r.lineEfficiency)) ∧
      generateTimeline 10 0 60 90 none [c1Row] = some c1Out) ∧
    (∀ a ∈ c1Out, ∀ b ∈ c1Out, (a.task = Task.wash ↔ b.task = Task.wash) →
      a = b ∨ ¬ overlapsI a b) :=
  ⟨⟨by decide, by decide, by with_unfolding_all decide, by with_unfolding_all decide⟩,
    c1_no_overlap_amended 10 0 60 90 none [c1Row] c1Out (by decide) (by decide)
      (by with_unfolding_all decide) (by with_unfolding_all decide)⟩

/-- C4 counterexample: on the concrete plan `c4Rows` (second row with
`changeoverMinutes = 0`), the output contains the interval `[1, 1)` of zero
duration — a zero-duration span is emitted, not dropped. -/
theorem c4_counterexample :
    generateTimeline 10 0 0 6000 none c4Rows = some c4Out ∧ ¬ allStrict c4Out := by
  constructor
  · with_unfolding_all decide
  · with_unfolding_all decide

/-- C4 amended: for a well-formed plan (non-negative wash duration and gap,
non-negative changeover and nominal processing time per row), every emitted
interval has `start ≤ stop` (never negative, and NaN cannot arise in the
exact rational time model), and every wash or processing interval is
strictly positive; only a changeover row with `changeoverMinutes = 0` (and
no overlapping wash) emits a zero-duration changeover interval instead of
dropping it. -/
theorem c4_duration_amended (fuel : ℕ) (startTime : ℚ) (durMins gapMins : ℤ)
    (fw : Option ℚ) (rows : List Row) (ts : List Interval)
    (hdur : 0 ≤ durMins) (hgap : 0 ≤ gapMins)
    (hrows : ∀ r ∈ rows, 0 ≤ r.changeOver ∧
      0 ≤ r.quantityLiters / (r.processSpeedPerHour * r.lineEfficiency))
    (h : generateTimeline fuel startTime durMins gapMins fw rows = some ts) :
    ∀ iv ∈ ts, iv.start ≤ iv.stop ∧ (iv.task ≠ Task.changeover → iv.start < iv.stop) :=
  (generateTimeline_inv hdur hgap hrows h).1

/-- C4 amended witness: the amended duration theorem applies to the concrete
counterexample plan, whose zero-duration interval is a changeover. -/
theorem c4_duration_amended_witness :
    ((0 : ℤ) ≤ 0 ∧ (0 : ℤ) ≤ 6000 ∧
      (∀ r ∈ c4Rows, 0 ≤ r.changeOver ∧
        0 ≤ r.quantityLiters / (r.processSpeedPerHour * r.lineEfficiency)) ∧
      generateTimeline 10 0 0 6000 none c4Rows = some c4Out) ∧
    (∀ iv ∈ c4Out, iv.start ≤ iv.stop ∧ (iv.task ≠ Task.changeover → iv.start < iv.stop)) :=
  ⟨⟨by decide, by decide, by with_unfolding_all decide, by with_unfolding_all decide⟩,
    c4_duration_amended 10 0 0 6000 none c4Rows c4Out (by decide) (by decide)
      (by with_unfolding_all decide) (by with_unfolding_all decide)⟩

/-- C8: at the concrete input with `speed * efficiency = 0` (one row,
`quantity = 600`, `speed = 0`, `efficiency = 1`), the scheduling pass has no
guard and no error path at all: in the exact model (where the unguarded
division yields a zero-length nominal window) it completes normally and
returns an ordinary schedule rather than any distinguishable error.  The
source computes `quantity_liters / effective_speed` (line 131) with no
check, so a zero effective speed never produces the required fail-fast
error (in Python it either raises a bare `ZeroDivisionError` swallowed by a
generic handler, or yields an infinite float window). -/
theorem c8_no_failfast :
    generateTimeline 10 0 60 120 none [⟨"P1", 600, 0, 1, 0⟩] = some [] := by
  with_unfolding_all decide

/-- The wash-candidate loop of the changeover phase never reaches its exit
condition when both the wash duration and the gap are zero and the next
start lies strictly before the window end: the candidate start never
advances. -/
theorem washCandidatesLoop_zero_stuck (bound lw : ℚ) (h : lw < bound) :
    ∀ fuel, washCandidatesLoop 0 0 bound fuel lw = none := by
  intro fuel
  induction fuel with
  | zero => rfl
  | succ n ih =>
    rw [washCandidatesLoop]
    simp only [add_zero]
    rw [if_pos h, ih]

/-- C3: the scheduling pass does NOT terminate on every finite product list
under the documented fallback.  With the wash policy fallback
`washPolicyOrDefault none = (0, 0)` (both `Duration` and `Gap` unparsable,
source lines 42-53) and two ordinary rows (6 h of processing each, 45 min
changeover before the second), the changeover-phase wash loop never reaches
its exit condition — the candidate start never advances while staying
strictly before the changeover end — so the pass returns `none` for every
fuel bound: the source loops forever appending zero-length washes. -/
theorem c3_fallback_nontermination :
    ∀ fuel, generateTimeline fuel 0 (washPolicyOrDefault none).1
      (washPolicyOrDefault none).2 none
      [⟨"P1", 600, 100, 1, 0⟩, ⟨"P2", 600, 100, 1, 45⟩] = none := by
  intro fuel
  show generateTimeline fuel 0 0 0 none _ = none
  cases fuel with
  | zero => rfl
  | succ n =>
    have hLoop : processingWashLoop 0 0 none 0 6 (n+1) 0 0 ([] : List Interval) =
        some ([], 0, 0) := by
      rw [processingWashLoop]
      norm_num
    have hstuck : washCandidatesLoop 0 0 ((27:ℚ)/4) (n+1) 0 = none :=
      washCandidatesLoop_zero_stuck _ _ (by norm_num) (n+1)
    norm_num [generateTimeline, runRows, stepRun, processingPhase, changeoverPhase,
      initState, hLoop, hstuck, sortWashes, segmentWalk, List.filter]

/-- Branch characterization of the changeover phase, shared by several
claims: with no strictly intersecting candidate a single changeover
interval is committed and the cursor becomes the changeover end; with a
strictly intersecting candidate no changeover is emitted, all candidates
are committed, and the cursor is set to the latest strictly intersecting
end. -/
theorem changeoverPhase_branches (d g : ℚ) (fuel i : ℕ) (name : String) (co : ℚ)
    (st : SchedState) (cands : List Wash) (lw' : ℚ)
    (hc : washCandidatesLoop d g (st.currentTime + co / 60) fuel st.lastWashEnd =
      some (cands, lw')) :
    ((∀ w ∈ cands, ¬(max st.currentTime w.start < min (st.currentTime + co / 60) w.stop)) →
      changeoverPhase d g fuel i name co st =
        some ⟨st.currentTime + co / 60, lw',
          st.tasks ++ [⟨st.currentTime, st.currentTime + co / 60, Task.changeover, name,
            (i : Int)⟩]⟩) ∧
    (∀ w₀ ∈ cands, max st.currentTime w₀.start < min (st.currentTime + co / 60) w₀.stop →
      ∃ st', changeoverPhase d g fuel i name co st = some st' ∧
        st'.tasks = st.tasks ++ cands.map washInterval ∧
        st'.lastWashEnd = lw' ∧
        (∃ w₁ ∈ cands, max st.currentTime w₁.start < min (st.currentTime + co / 60) w₁.stop ∧
          st'.currentTime = w₁.stop) ∧
        (∀ w ∈ cands, max st.currentTime w.start < min (st.currentTime + co / 60) w.stop →
          w.stop ≤ st'.currentTime)) := by
  constructor
  · intro hno
    unfold changeoverPhase
    simp only [hc]
    have hA : cands.any (fun w =>
        decide (max st.currentTime w.start < min (st.currentTime + co / 60) w.stop)) = false := by
      rw [List.any_eq_false]
      intro w hw
      rw [decide_eq_true_eq]
      exact hno w hw
    rw [Bool.eq_false_iff] at hA
    rw [if_neg hA]
  · intro w₀ hw₀ hov
    unfold changeoverPhase
    simp only [hc]
    have hA : cands.any (fun w =>
        decide (max st.currentTime w.start < min (st.currentTime + co / 60) w.stop)) = true :=
      List.any_eq_true.mpr ⟨w₀, hw₀, decide_eq_true hov⟩
    rw [if_pos hA]
    have hwomem : w₀ ∈ cands.filter fun w =>
        decide (max st.currentTime w.start < min (st.currentTime + co / 60) w.stop) :=
      List.mem_filter.mpr ⟨hw₀, decide_eq_true hov⟩
    rcases hov' : cands.filter (fun w =>
        decide (max st.currentTime w.start < min (st.currentTime + co / 60) w.stop)) with
      _ | ⟨w0, ovs⟩
    · rw [hov'] at hwomem
      exact absurd hwomem (List.not_mem_nil _)
    · obtain ⟨hms1, hms2, hms3⟩ := maxStop_spec w0 ovs
      have hmem0 : w0 ∈ cands.filter fun w =>
          decide (max st.currentTime w.start < min (st.currentTime + co / 60) w.stop) := by
        rw [hov']; exact List.mem_cons_self ..
      obtain ⟨hw0c, hw0ov⟩ := List.mem_filter.mp hmem0
      rw [decide_eq_true_eq] at hw0ov
      refine ⟨_, by rw [hov'], rfl, rfl, ?_, ?_⟩
      · rcases hms3 with hms3 | ⟨v, hv, hms3⟩
        · exact ⟨w0, hw0c, hw0ov, hms3⟩
        · have hvmem : v ∈ cands.filter fun w =>
              decide (max st.currentTime w.start < min (st.currentTime + co / 60) w.stop) := by
            rw [hov']; exact List.mem_cons_of_mem _ hv
          obtain ⟨hvc, hvov⟩ := List.mem_filter.mp hvmem
          rw [decide_eq_true_eq] at hvov
          exact ⟨v, hvc, hvov, hms3⟩
      · intro w hw hwov
        have hwm : w ∈ cands.filter fun w =>
            decide (max st.currentTime w.start < min (st.currentTime + co / 60) w.stop) :=
          List.mem_filter.mpr ⟨hw, decide_eq_true hwov⟩
        rw [hov'] at hwm
        rcases List.mem_cons.mp hwm with rfl | hwm
        · exact hms1
        · exact hms2 w hwm

/-- C2: the changeover rule, exactly as the code implements it.  Given the
enumerated candidates of a changeover phase: if none strictly intersects
`[currentTime, changeoverEnd)` (in particular when every candidate merely
abuts the window), a single changeover interval `[currentTime,
changeoverEnd)` with `order = i` is committed and the cursor becomes
`changeoverEnd`; if some candidate strictly intersects, no changeover
interval is emitted (only the candidate washes are) and the cursor is set
to the latest end time among the strictly intersecting washes. -/
theorem c2_changeover_rule (d g : ℚ) (fuel i : ℕ) (name : String) (co : ℚ)
    (st : SchedState) (cands : List Wash) (lw' : ℚ)
    (hc : washCandidatesLoop d g (st.currentTime + co / 60) fuel st.lastWashEnd =
      some (cands, lw')) :
    ((∀ w ∈ cands, ¬(max st.currentTime w.start < min (st.currentTime + co / 60) w.stop)) →
      changeoverPhase d g fuel i name co st =
        some ⟨st.currentTime + co / 60, lw',
          st.tasks ++ [⟨st.currentTime, st.currentTime + co / 60, Task.changeover, name,
            (i : Int)⟩]⟩) ∧
    (∀ w₀ ∈ cands, max st.currentTime w₀.start < min (st.currentTime + co / 60) w₀.stop →
      ∃ st', changeoverPhase d g fuel i name co st = some st' ∧
        st'.tasks = st.tasks ++ cands.map washInterval ∧
        st'.lastWashEnd = lw' ∧
        (∃ w₁ ∈ cands, max st.currentTime w₁.start < min (st.currentTime + co / 60) w₁.stop ∧
          st'.currentTime = w₁.stop) ∧
        (∀ w ∈ cands, max st.currentTime w.start < min (st.currentTime + co / 60) w.stop →
          w.stop ≤ st'.currentTime)) :=
  changeoverPhase_branches d g fuel i name co st cands lw' hc

/-- C2 witness: on a concrete changeover phase (cursor 0, wash 30 min every
30 min, changeover 120 min) the candidates `[1/2, 1)` and `[3/2, 2)` are
enumerated, both strictly intersect the window `[0, 2)`, and the theorem's
suppression branch applies. -/
theorem c2_changeover_rule_witness :
    (washCandidatesLoop (1/2) (1/2) (((⟨0, 0, []⟩ : SchedState)).currentTime + 120 / 60) 10
        ((⟨0, 0, []⟩ : SchedState)).lastWashEnd = some ([⟨1/2, 1⟩, ⟨3/2, 2⟩], 2)) ∧
    ((∀ w ∈ ([⟨1/2, 1⟩, ⟨3/2, 2⟩] : List Wash),
        ¬(max (⟨0, 0, []⟩ : SchedState).currentTime w.start <
          min ((⟨0, 0, []⟩ : SchedState).currentTime + 120 / 60) w.stop)) →
      changeoverPhase (1/2) (1/2) 10 1 "P2" 120 ⟨0, 0, []⟩ =
        some ⟨(⟨0, 0, []⟩ : SchedState).currentTime + 120 / 60, 2,
          (⟨0, 0, []⟩ : SchedState).tasks ++
            [⟨(⟨0, 0, []⟩ : SchedState).currentTime,
              (⟨0, 0, []⟩ : SchedState).currentTime + 120 / 60, Task.changeover, "P2",
              ((1 : ℕ) : Int)⟩]⟩) ∧
    (∀ w₀ ∈ ([⟨1/2, 1⟩, ⟨3/2, 2⟩] : List Wash),
      max (⟨0, 0, []⟩ : SchedState).currentTime w₀.start <
        min ((⟨0, 0, []⟩ : SchedState).currentTime + 120 / 60) w₀.stop →
      ∃ st', changeoverPhase (1/2) (1/2) 10 1 "P2" 120 ⟨0, 0, []⟩ = some st' ∧
        st'.tasks = (⟨0, 0, []⟩ : SchedState).tasks ++
          ([⟨1/2, 1⟩, ⟨3/2, 2⟩] : List Wash).map washInterval ∧
        st'.lastWashEnd = 2 ∧
        (∃ w₁ ∈ ([⟨1/2, 1⟩, ⟨3/2, 2⟩] : List Wash),
          max (⟨0, 0, []⟩ : SchedState).currentTime w₁.start <
            min ((⟨0, 0, []⟩ : SchedState).currentTime + 120 / 60) w₁.stop ∧
          st'.currentTime = w₁.stop) ∧
        (∀ w ∈ ([⟨1/2, 1⟩, ⟨3/2, 2⟩] : List Wash),
          max (⟨0, 0, []⟩ : SchedState).currentTime w.start <
            min ((⟨0, 0, []⟩ : SchedState).currentTime + 120 / 60) w.stop →
          w.stop ≤ st'.currentTime)) :=
  ⟨by with_unfolding_all decide,
    c2_changeover_rule (1/2) (1/2) 10 1 "P2" 120 ⟨0, 0, []⟩ [⟨1/2, 1⟩, ⟨3/2, 2⟩] 2
      (by with_unfolding_all decide)⟩

/-- C5 amended: the enumerated changeover candidates are committed
all-or-nothing.  When at least one of them strictly intersects
`[currentTime, changeoverEnd)` every enumerated candidate is materialized
and committed; when none does, the changeover interval alone is committed
and every enumerated candidate is discarded — although `lastWashEnd` has
still advanced past all of them to the loop's final cursor. -/
theorem c5_commit_amended (d g : ℚ) (fuel i : ℕ) (name : String) (co : ℚ)
    (st : SchedState) (cands : List Wash) (lw' : ℚ)
    (hc : washCandidatesLoop d g (st.currentTime + co / 60) fuel st.lastWashEnd =
      some (cands, lw')) :
    ((∃ w ∈ cands, max st.currentTime w.start < min (st.currentTime + co / 60) w.stop) →
      ∃ st', changeoverPhase d g fuel i name co st = some st' ∧
        st'.tasks = st.tasks ++ cands.map washInterval ∧ st'.lastWashEnd = lw') ∧
    ((∀ w ∈ cands, ¬(max st.currentTime w.start < min (st.currentTime + co / 60) w.stop)) →
      ∃ st', changeoverPhase d g fuel i name co st = some st' ∧
        st'.tasks = st.tasks ++ [⟨st.currentTime, st.currentTime + co / 60,
          Task.changeover, name, (i : Int)⟩] ∧ st'.lastWashEnd = lw') := by
  constructor
  · rintro ⟨w₀, hw₀, hov⟩
    obtain ⟨st', heq, htasks, hlw, _, _⟩ := (changeoverPhase_branches d g fuel i name co st
      cands lw' hc).2 w₀ hw₀ hov
    exact ⟨st', heq, htasks, hlw⟩
  · intro hno
    exact ⟨_, (changeoverPhase_branches d g fuel i name co st cands lw' hc).1 hno, rfl, rfl⟩

/-- C5 counterexample: in the changeover phase of run 1 of the `c5Rows`
plan the wash generator enumerates the candidates `[-3,-2), [-1,0), [1,2),
[3,4), [5,6)` — all starting strictly before the changeover end `13/2` —
yet the final output contains no wash starting at `1` (nor any of the
others): all five enumerated candidates are discarded without being
emitted, refuting the claim that every enumerated candidate is committed. -/
theorem c5_counterexample :
    stepRun 1 1 (some (-5)) 30 0 ⟨"P1", 600, 100, 1, 0⟩ (initState 0 1 (some (-5))) =
      some c5St1 ∧
    washCandidatesLoop 1 1 (c5St1.currentTime + 30 / 60) 30 c5St1.lastWashEnd =
      some ([⟨-3, -2⟩, ⟨-1, 0⟩, ⟨1, 2⟩, ⟨3, 4⟩, ⟨5, 6⟩], 6) ∧
    ((1 : ℚ) < c5St1.currentTime + 30 / 60) ∧
    runRows 1 1 (some (-5)) 30 0 c5Rows (initState 0 1 (some (-5))) = some c5St2 ∧
    c5St2.tasks.filter (fun iv => decide (iv.task = Task.wash) && decide (iv.start = 1)) =
      [] := by
  refine ⟨?_, ?_, ?_, ?_, ?_⟩
  · with_unfolding_all decide
  · with_unfolding_all decide
  · with_unfolding_all decide
  · with_unfolding_all decide
  · with_unfolding_all decide

/-- C5 amended witness: the all-or-nothing commit theorem applies to the
concrete changeover phase of run 1 of the `c5Rows` plan, where no candidate
intersects the window and the discard branch fires. -/
theorem c5_commit_amended_witness :
    (washCandidatesLoop 1 1 (c5St1.currentTime + 30 / 60) 30 c5St1.lastWashEnd =
      some ([⟨-3, -2⟩, ⟨-1, 0⟩, ⟨1, 2⟩, ⟨3, 4⟩, ⟨5, 6⟩], 6)) ∧
    (((∃ w ∈ ([⟨-3, -2⟩, ⟨-1, 0⟩, ⟨1, 2⟩, ⟨3, 4⟩, ⟨5, 6⟩] : List Wash),
        max c5St1.currentTime w.start < min (c5St1.currentTime + 30 / 60) w.stop) →
      ∃ st', changeoverPhase 1 1 30 1 "P2" 30 c5St1 = some st' ∧
        st'.tasks = c5St1.tasks ++
          ([⟨-3, -2⟩, ⟨-1, 0⟩, ⟨1, 2⟩, ⟨3, 4⟩, ⟨5, 6⟩] : List Wash).map washInterval ∧
        st'.lastWashEnd = 6) ∧
    ((∀ w ∈ ([⟨-3, -2⟩, ⟨-1, 0⟩, ⟨1, 2⟩, ⟨3, 4⟩, ⟨5, 6⟩] : List Wash),
        ¬(max c5St1.currentTime w.start < min (c5St1.currentTime + 30 / 60) w.stop)) →
      ∃ st', changeoverPhase 1 1 30 1 "P2" 30 c5St1 = some st' ∧
        st'.tasks = c5St1.tasks ++ [⟨c5St1.currentTime, c5St1.currentTime + 30 / 60,
          Task.changeover, "P2", ((1 : ℕ) : Int)⟩] ∧ st'.lastWashEnd = 6)) :=
  ⟨by with_unfolding_all decide,
    c5_commit_amended 1 1 30 1 "P2" 30 c5St1 [⟨-3, -2⟩, ⟨-1, 0⟩, ⟨1, 2⟩, ⟨3, 4⟩, ⟨5, 6⟩] 6
      (by with_unfolding_all decide)⟩

/-- The changeover phase never moves the cursor backwards: the suppression
branch jumps to the latest end of a strictly intersecting wash (which ends
strictly after the cursor), the other branch adds the non-negative
changeover duration. -/
theorem changeoverPhase_mono {d g co : ℚ} (fuel i : ℕ) (name : String)
    {st st' : SchedState} (hco : 0 ≤ co)
    (h : changeoverPhase d g fuel i name co st = some st') :
    st.currentTime ≤ st'.currentTime := by
  unfold changeoverPhase at h
  rcases hwc : washCandidatesLoop d g (st.currentTime + co / 60) fuel st.lastWashEnd with
    _ | ⟨cands, lw'⟩
  · simp only [hwc] at h
    exact Option.noConfusion h
  · simp only [hwc] at h
    by_cases hA : cands.any (fun w =>
        decide (max st.currentTime w.start < min (st.currentTime + co / 60) w.stop)) = true
    · rw [if_pos hA] at h
      rcases hov : cands.filter (fun w =>
          decide (max st.currentTime w.start < min (st.currentTime + co / 60) w.stop)) with
        _ | ⟨w0, ovs⟩
      · simp only [hov] at h
        obtain rfl := Option.some_inj.mp h
        exact le_refl _
      · simp only [hov] at h
        obtain rfl := Option.some_inj.mp h
        show st.currentTime ≤ maxStop w0 ovs
        obtain ⟨hms1, _, _⟩ := maxStop_spec w0 ovs
        have hmem0 : w0 ∈ cands.filter fun w =>
            decide (max st.currentTime w.start < min (st.currentTime + co / 60) w.stop) := by
          rw [hov]; exact List.mem_cons_self ..
        obtain ⟨_, hw0ov⟩ := List.mem_filter.mp hmem0
        rw [decide_eq_true_eq] at hw0ov
        have : st.currentTime < w0.stop := by
          have h1 : st.currentTime ≤ max st.currentTime w0.start := le_max_left _ _
          have h2 : min (st.currentTime + co / 60) w0.stop ≤ w0.stop := min_le_right _ _
          linarith
        linarith
    · rw [if_neg hA] at h
      obtain rfl := Option.some_inj.mp h
      show st.currentTime ≤ st.currentTime + co / 60
      have : (0 : ℚ) ≤ co / 60 := by positivity
      linarith

/-- The processing phase never moves the cursor backwards when the nominal
processing time is non-negative: the extended end is the nominal end plus
the accumulated (non-negative) wash overlap. -/
theorem processingPhase_mono {d g : ℚ} (fw : Option ℚ) (fuel i : ℕ) {row : Row}
    {st st' : SchedState} (hd : 0 ≤ d) (hg : 0 ≤ g)
    (hh : 0 ≤ row.quantityLiters / (row.processSpeedPerHour * row.lineEfficiency))
    (h : processingPhase d g fw fuel i row st = some st') :
    st.currentTime ≤ st'.currentTime := by
  unfold processingPhase at h
  rcases hpl : processingWashLoop d g fw st.currentTime
      (st.currentTime + row.quantityLiters / (row.processSpeedPerHour * row.lineEfficiency))
      fuel st.lastWashEnd 0 st.tasks with _ | ⟨tasks1, tot', lw'⟩
  · simp only [hpl] at h
    exact Option.noConfusion h
  · simp only [hpl] at h
    obtain rfl := Option.some_inj.mp h
    obtain ⟨_, htot, _⟩ := processingWashLoop_spec fw st.currentTime _ hd hg fuel _ _ _ _ _ _ hpl
    show st.currentTime ≤ st.currentTime + row.quantityLiters /
      (row.processSpeedPerHour * row.lineEfficiency) + tot'
    linarith

/-- One run never moves the cursor backwards, for a well-formed row. -/
theorem stepRun_mono {d g : ℚ} (fw : Option ℚ) (fuel i : ℕ) {row : Row}
    {st st' : SchedState} (hd : 0 ≤ d) (hg : 0 ≤ g) (hco : 0 ≤ row.changeOver)
    (hh : 0 ≤ row.quantityLiters / (row.processSpeedPerHour * row.lineEfficiency))
    (h : stepRun d g fw fuel i row st = some st') :
    st.currentTime ≤ st'.currentTime := by
  unfold stepRun at h
  by_cases hi : i = 0
  · rw [if_pos hi] at h
    exact processingPhase_mono fw fuel i hd hg hh h
  · rw [if_neg hi] at h
    rcases hcp : changeoverPhase d g fuel i row.productName row.changeOver st with _ | st1
    · simp only [hcp] at h
      exact Option.noConfusion h
    · simp only [hcp] at h
      exact le_trans (changeoverPhase_mono fuel i _ hco hcp)
        (processingPhase_mono fw fuel i hd hg hh h)

/-- C9: for every plan with positive quantities, positive speeds,
efficiency in `(0, 1]`, non-negative changeovers and non-negative wash
duration and gap, the cursor is monotonically non-decreasing across the
whole pass: every single run (changeover commit, wash-suppression jump, or
processing end) leaves the cursor at or after its previous value, and the
cursor after any tail of the product loop is at or after the cursor before
it — in particular the cursor at the start of run `i+1` (the value at the
end of run `i`) is at or after the cursor entering run `i`. -/
theorem c9_monotone_cursor (d g : ℚ) (fw : Option ℚ) (fuel : ℕ) (rows : List Row)
    (hd : 0 ≤ d) (hg : 0 ≤ g)
    (hrows : ∀ r ∈ rows, 0 < r.quantityLiters ∧ 0 < r.processSpeedPerHour ∧
      0 < r.lineEfficiency ∧ r.lineEfficiency ≤ 1 ∧ 0 ≤ r.changeOver) :
    (∀ i (row : Row) (st st' : SchedState), row ∈ rows →
      stepRun d g fw fuel i row st = some st' → st.currentTime ≤ st'.currentTime) ∧
    (∀ i (st st' : SchedState), runRows d g fw fuel i rows st = some st' →
      st.currentTime ≤ st'.currentTime) := by
  have hrow' : ∀ r ∈ rows, 0 ≤ r.changeOver ∧
      0 ≤ r.quantityLiters / (r.processSpeedPerHour * r.lineEfficiency) := by
    intro r hr
    obtain ⟨hq, hs, he, _, hco⟩ := hrows r hr
    exact ⟨hco, div_nonneg hq.le (mul_pos hs he).le⟩
  constructor
  · intro i row st st' hrow h
    obtain ⟨hco, hh⟩ := hrow' row hrow
    exact stepRun_mono fw fuel i hd hg hco hh h
  · have : ∀ (l : List Row), (∀ r ∈ l, 0 ≤ r.changeOver ∧
        0 ≤ r.quantityLiters / (r.processSpeedPerHour * r.lineEfficiency)) →
        ∀ i (st st' : SchedState), runRows d g fw fuel i l st = some st' →
        st.currentTime ≤ st'.currentTime := by
      intro l
      induction l with
      | nil =>
        intro _ i st st' h
        rw [runRows] at h
        obtain rfl := Option.some_inj.mp h
        exact le_refl _
      | cons row rest ih =>
        intro hl i st st' h
        rw [runRows] at h
        rcases hstep : stepRun d g fw fuel i row st with _ | st1
        · simp only [hstep] at h
          exact Option.noConfusion h
        · simp only [hstep] at h
          obtain ⟨hco, hh⟩ := hl row (List.mem_cons_self ..)
          exact le_trans (stepRun_mono fw fuel i hd hg hco hh hstep)
            (ih (fun r hr => hl r (List.mem_cons_of_mem _ hr)) (i + 1) st1 st' h)
    exact this rows hrow'

/-- C9 witness: the monotone-cursor theorem applies to the concrete two-row
plan of the spec's scenario (6 h runs, 45 min changeover, wash 30/120). -/
theorem c9_monotone_cursor_witness :
    ((0 : ℚ) ≤ 1/2 ∧ (0 : ℚ) ≤ 2 ∧
      (∀ r ∈ ([⟨"A", 600, 100, 1, 0⟩, ⟨"B", 600, 100, 1, 45⟩] : List Row),
        0 < r.quantityLiters ∧ 0 < r.processSpeedPerHour ∧
        0 < r.lineEfficiency ∧ r.lineEfficiency ≤ 1 ∧ 0 ≤ r.changeOver)) ∧
    ((∀ i (row : Row) (st st' : SchedState),
        row ∈ ([⟨"A", 600, 100, 1, 0⟩, ⟨"B", 600, 100, 1, 45⟩] : List Row) →
        stepRun (1/2) 2 none 30 i row st = some st' →
        st.currentTime ≤ st'.currentTime) ∧
      (∀ i (st st' : SchedState),
        runRows (1/2) 2 none 30 i [⟨"A", 600, 100, 1, 0⟩, ⟨"B", 600, 100, 1, 45⟩] st =
          some st' → st.currentTime ≤ st'.currentTime)) :=
  ⟨⟨by norm_num, by norm_num, by with_unfolding_all decide⟩,
    c9_monotone_cursor (1/2) 2 none 30 [⟨"A", 600, 100, 1, 0⟩, ⟨"B", 600, 100, 1, 45⟩]
      (by norm_num) (by norm_num) (by with_unfolding_all decide)⟩

/-- The processing wash loop only appends: every incoming task is still in
the outgoing task list. -/
theorem processingWashLoop_tasks_mono (d g : ℚ) (fw : Option ℚ) (c pe : ℚ) :
    ∀ (fuel : ℕ) (lw tot : ℚ) (tasks tasks' : List Interval) (tot' lw' : ℚ),
      processingWashLoop d g fw c pe fuel lw tot tasks = some (tasks', tot', lw') →
      ∀ iv ∈ tasks, iv ∈ tasks' := by
  intro fuel
  induction fuel with
  | zero => intro lw tot tasks tasks' tot' lw' h; simp [processingWashLoop] at h
  | succ n ih =>
    intro lw tot tasks tasks' tot' lw' h
    rw [processingWashLoop] at h
    by_cases hc : lw + g < pe + tot
    · rw [if_pos hc] at h
      by_cases ho : max c (lw + g) < min (pe + tot) (lw + g + d)
      · rw [if_pos ho] at h
        intro iv hiv
        by_cases hskip : fw = some (lw + g)
        · rw [if_pos hskip] at h
          exact ih _ _ _ _ _ _ h iv hiv
        · rw [if_neg hskip] at h
          exact ih _ _ _ _ _ _ h iv (List.mem_append_left _ hiv)
      · rw [if_neg ho] at h
        obtain ⟨h1, _, _⟩ := Prod.mk.injEq .. ▸ Option.some_inj.mp h
        subst h1
        exact fun iv hiv => hiv
    · rw [if_neg hc] at h
      obtain ⟨h1, _, _⟩ := Prod.mk.injEq .. ▸ Option.some_inj.mp h
      subst h1
      exact fun iv hiv => hiv

/-- The processing phase only appends: every incoming task is still in the
outgoing task list. -/
theorem processingPhase_tasks_mono {d g : ℚ} (fw : Option ℚ) (fuel i : ℕ) {row : Row}
    {st st' : SchedState} (h : processingPhase d g fw fuel i row st = some st') :
    ∀ iv ∈ st.tasks, iv ∈ st'.tasks := by
  unfold processingPhase at h
  rcases hpl : processingWashLoop d g fw st.currentTime
      (st.currentTime + row.quantityLiters / (row.processSpeedPerHour * row.lineEfficiency))
      fuel st.lastWashEnd 0 st.tasks with _ | ⟨tasks1, tot', lw'⟩
  · simp only [hpl] at h
    exact Option.noConfusion h
  · simp only [hpl] at h
    obtain rfl := Option.some_inj.mp h
    intro iv hiv
    have hiv1 : iv ∈ tasks1 :=
      processingWashLoop_tasks_mono d g fw st.currentTime _ fuel _ _ _ _ _ _ hpl iv hiv
    dsimp only
    split
    · exact List.mem_append_left _ (List.mem_append_left _ hiv1)
    · exact List.mem_append_left _ hiv1

/-- Coverage of one processing phase: every time point between the incoming
cursor and the outgoing cursor is covered by a committed interval — a
processing segment of this run or a wash. -/
theorem processingPhase_cover {d g : ℚ} (fw : Option ℚ) (fuel i : ℕ) {row : Row}
    {st st' : SchedState} (h : processingPhase d g fw fuel i row st = some st') :
    ∀ x : ℚ, st.currentTime ≤ x → x < st'.currentTime →
      ∃ iv ∈ st'.tasks, (iv.order = (i : Int) ∨ iv.task = Task.wash) ∧
        iv.start ≤ x ∧ x < iv.stop := by
  unfold processingPhase at h
  rcases hpl : processingWashLoop d g fw st.currentTime
      (st.currentTime + row.quantityLiters / (row.processSpeedPerHour * row.lineEfficiency))
      fuel st.lastWashEnd 0 st.tasks with _ | ⟨tasks1, tot', lw'⟩
  · simp only [hpl] at h
    exact Option.noConfusion h
  · simp only [hpl] at h
    obtain rfl := Option.some_inj.mp h
    intro x hx1 hx2
    set pe := st.currentTime + row.quantityLiters /
      (row.processSpeedPerHour * row.lineEfficiency) with hpedef
    set cut := sortWashes ((tasks1.filter fun iv =>
        decide (iv.task = Task.wash) &&
        decide (max st.currentTime iv.start < min pe iv.stop)).map
      fun iv => (⟨iv.start, iv.stop⟩ : Wash)) with hcutdef
    set W := segmentWalk (i : Int) row.productName cut st.currentTime with hWdef
    by_cases hxw : x < W.2
    · rcases segmentWalk_cover (i : Int) row.productName cut st.currentTime x hx1 hxw with
        ⟨s, hs, hcov1, hcov2⟩ | ⟨w, hw, hcov1, hcov2⟩
      · obtain ⟨hstask, _, hsord, _, _, _, _⟩ :=
          (segmentWalk_spec (i : Int) row.productName st.currentTime pe cut st.currentTime
            (cutWashes_intersect _ _ tasks1)).2.1 s hs
        refine ⟨s, ?_, Or.inl hsord, hcov1, hcov2⟩
        dsimp only
        split
        · exact List.mem_append_left _ (List.mem_append_right _ hs)
        · exact List.mem_append_right _ hs
      · rw [hcutdef, mem_sortWashes] at hw
        obtain ⟨iv, hiv, hivw⟩ := List.mem_map.mp hw
        obtain ⟨hivmem, hivcond⟩ := List.mem_filter.mp hiv
        rw [Bool.and_eq_true, decide_eq_true_eq, decide_eq_true_eq] at hivcond
        have hs : iv.start = w.start := by rw [← hivw]
        have he : iv.stop = w.stop := by rw [← hivw]
        refine ⟨iv, ?_, Or.inr hivcond.1, by rw [hs]; exact hcov1, by rw [he]; exact hcov2⟩
        dsimp only
        split
        · exact List.mem_append_left _ (List.mem_append_left _ hivmem)
        · exact List.mem_append_left _ hivmem
    · push_neg at hxw
      have hfin : W.2 < pe + tot' := lt_of_le_of_lt hxw hx2
      refine ⟨⟨W.2, pe + tot', Task.processing, row.productName, (i : Int)⟩, ?_,
        Or.inl rfl, hxw, hx2⟩
      dsimp only
      split
      · exact List.mem_append_right _ (List.mem_singleton.mpr rfl)
      · rename_i hcond
        exact absurd hfin hcond

/-- C6 amended: for every run whose changeover phase is not suppressed (for
`i > 0`, no enumerated candidate strictly intersects the changeover window;
run 0 has no changeover phase and is covered unconditionally), every time
point from the cursor at run entry to the cursor at run exit is covered by
a committed interval of this run (`order = i`) or by a committed wash.
Coverage may involve overlaps, and intervals may straddle the run boundary;
a run whose changeover is suppressed can leave uncovered gaps, as the
counterexample shows. -/
theorem c6_coverage_amended (d g : ℚ) (fw : Option ℚ) (fuel i : ℕ) (row : Row)
    (st st' : SchedState)
    (hstep : stepRun d g fw fuel i row st = some st')
    (hnosup : i ≠ 0 → ∀ w ∈ candidatesOf (washCandidatesLoop d g
        (st.currentTime + row.changeOver / 60) fuel st.lastWashEnd),
      ¬(max st.currentTime w.start < min (st.currentTime + row.changeOver / 60) w.stop)) :
    ∀ x : ℚ, st.currentTime ≤ x → x < st'.currentTime →
      ∃ iv ∈ st'.tasks, (iv.order = (i : Int) ∨ iv.task = Task.wash) ∧
        iv.start ≤ x ∧ x < iv.stop := by
  unfold stepRun at hstep
  by_cases hi : i = 0
  · rw [if_pos hi] at hstep
    exact processingPhase_cover fw fuel i hstep
  · rw [if_neg hi] at hstep
    rcases hcp : changeoverPhase d g fuel i row.productName row.changeOver st with _ | st1
    · simp only [hcp] at hstep
      exact Option.noConfusion hstep
    · simp only [hcp] at hstep
      rcases hwc : washCandidatesLoop d g (st.currentTime + row.changeOver / 60) fuel
          st.lastWashEnd with _ | ⟨cands, lw'⟩
      · unfold changeoverPhase at hcp
        simp only [hwc] at hcp
        exact Option.noConfusion hcp
      · have hno : ∀ w ∈ cands,
            ¬(max st.currentTime w.start < min (st.currentTime + row.changeOver / 60) w.stop) := by
          intro w hw
          exact hnosup hi w (by rw [hwc]; exact hw)
        have hshape := (changeoverPhase_branches d g fuel i row.productName row.changeOver st
          cands lw' hwc).1 hno
        rw [hcp] at hshape
        obtain rfl := Option.some_inj.mp hshape
        intro x hx1 hx2
        by_cases hxce : x < st.currentTime + row.changeOver / 60
        · refine ⟨⟨st.currentTime, st.currentTime + row.changeOver / 60,
            Task.changeover, row.productName, (i : Int)⟩, ?_, Or.inl rfl, hx1, hxce⟩
          exact processingPhase_tasks_mono fw fuel i hstep _
            (List.mem_append_right _ (List.mem_singleton.mpr rfl))
        · push_neg at hxce
          exact processingPhase_cover fw fuel i hstep x hxce hx2

/-- C6 counterexample: in the `c6Rows` plan run 1 is entered at cursor
`3/2` and left at cursor `9/2`, yet the time point `9/4` inside
`[3/2, 9/2)` is covered by no committed interval whatsoever — the
suppressed changeover leaves the line idle on `[2, 5/2)`, so the union of
the run's intervals and the washes in its span is not `[entryTime,
exitTime)`. -/
theorem c6_counterexample :
    stepRun (1/2) (1/2) none 30 0 ⟨"P1", 100, 100, 1, 0⟩ (initState 0 (1/2) none) =
      some c6St1 ∧
    stepRun (1/2) (1/2) none 30 1 ⟨"P2", 100, 100, 1, 120⟩ c6St1 = some c6St2 ∧
    (c6St1.currentTime ≤ 9/4 ∧ (9/4 : ℚ) < c6St2.currentTime) ∧
    c6St2.tasks.filter (fun iv => decide (iv.start ≤ 9/4) && decide ((9/4 : ℚ) < iv.stop)) =
      [] := by
  refine ⟨?_, ?_, ?_, ?_⟩
  · with_unfolding_all decide
  · with_unfolding_all decide
  · with_unfolding_all decide
  · with_unfolding_all decide

/-- C6 amended witness: the coverage theorem applies to run 1 of the
`c5Rows` plan: five stale candidates are enumerated, none strictly
intersects the changeover window `[6, 13/2)`, so the run is not suppressed
and its whole span `[6, 8)` is covered by the changeover, the processing
segment and the committed wash. -/
theorem c6_coverage_amended_witness :
    (stepRun 1 1 (some (-5)) 30 1 ⟨"P2", 100, 100, 1, 30⟩ c5St1 = some c5St2 ∧
      ((1 : ℕ) ≠ 0 → ∀ w ∈ candidatesOf (washCandidatesLoop 1 1
          (c5St1.currentTime + (⟨"P2", 100, 100, 1, 30⟩ : Row).changeOver / 60) 30
          c5St1.lastWashEnd),
        ¬(max c5St1.currentTime w.start <
          min (c5St1.currentTime + (⟨"P2", 100, 100, 1, 30⟩ : Row).changeOver / 60) w.stop))) ∧
    (∀ x : ℚ, c5St1.currentTime ≤ x → x < c5St2.currentTime →
      ∃ iv ∈ c5St2.tasks, (iv.order = ((1 : ℕ) : Int) ∨ iv.task = Task.wash) ∧
        iv.start ≤ x ∧ x < iv.stop) :=
  ⟨⟨by with_unfolding_all decide, by with_unfolding_all decide⟩,
    c6_coverage_amended 1 1 (some (-5)) 30 1 ⟨"P2", 100, 100, 1, 30⟩ c5St1 c5St2
      (by with_unfolding_all decide) (by with_unfolding_all decide)⟩

/-- The changeover phase only appends, never rewinds the last-wash cursor,
and every appended wash starts at least one gap after the incoming
last-wash cursor (no invariant needed). -/
theorem changeoverPhase_news {d g co : ℚ} (fuel i : ℕ) (name : String)
    {st st' : SchedState} (hd : 0 ≤ d) (hg : 0 ≤ g)
    (h : changeoverPhase d g fuel i name co st = some st') :
    st.lastWashEnd ≤ st'.lastWashEnd ∧
      ∃ news, st'.tasks = st.tasks ++ news ∧
        ∀ iv ∈ news, iv.task = Task.wash → st.lastWashEnd + g ≤ iv.start := by
  unfold changeoverPhase at h
  rcases hwc : washCandidatesLoop d g (st.currentTime + co / 60) fuel st.lastWashEnd with
    _ | ⟨cands, lw'⟩
  · simp only [hwc] at h
    exact Option.noConfusion h
  · simp only [hwc] at h
    obtain ⟨hm1, hm2, _⟩ := washCandidatesLoop_spec _ hd hg fuel _ _ _ hwc
    by_cases hA : cands.any (fun w =>
        decide (max st.currentTime w.start < min (st.currentTime + co / 60) w.stop)) = true
    · rw [if_pos hA] at h
      rcases hov : cands.filter (fun w =>
          decide (max st.currentTime w.start < min (st.currentTime + co / 60) w.stop)) with
        _ | ⟨w0, ovs⟩ <;> simp only [hov] at h <;> obtain rfl := Option.some_inj.mp h <;>
        refine ⟨hm1, cands.map washInterval, rfl, ?_⟩ <;>
        · intro iv hiv _
          obtain ⟨w, hw, rfl⟩ := List.mem_map.mp hiv
          exact (hm2 w hw).1
    · rw [if_neg hA] at h
      obtain rfl := Option.some_inj.mp h
      refine ⟨hm1, _, rfl, ?_⟩
      intro iv hiv hw
      rcases List.mem_singleton.mp hiv with rfl
      exact absurd hw (by simp)

/-- The processing phase only appends, never rewinds the last-wash cursor,
and every appended wash starts at least one gap after the incoming
last-wash cursor (no invariant needed). -/
theorem processingPhase_news {d g : ℚ} (fw : Option ℚ) (fuel i : ℕ) {row : Row}
    {st st' : SchedState} (hd : 0 ≤ d) (hg : 0 ≤ g)
    (h : processingPhase d g fw fuel i row st = some st') :
    st.lastWashEnd ≤ st'.lastWashEnd ∧
      ∃ news, st'.tasks = st.tasks ++ news ∧
        ∀ iv ∈ news, iv.task = Task.wash → st.lastWashEnd + g ≤ iv.start := by
  unfold processingPhase at h
  rcases hpl : processingWashLoop d g fw st.currentTime
      (st.currentTime + row.quantityLiters / (row.processSpeedPerHour * row.lineEfficiency))
      fuel st.lastWashEnd 0 st.tasks with _ | ⟨tasks1, tot', lw'⟩
  · simp only [hpl] at h
    exact Option.noConfusion h
  · simp only [hpl] at h
    obtain rfl := Option.some_inj.mp h
    obtain ⟨hl1, _, news1, htasks1, hfacts1, _⟩ :=
      processingWashLoop_spec fw st.currentTime _ hd hg fuel _ _ _ _ _ _ hpl
    dsimp only
    constructor
    · exact hl1
    · set W := segmentWalk (i : Int) row.productName _ st.currentTime with hWdef
      by_cases hfin : W.2 < st.currentTime + row.quantityLiters /
          (row.processSpeedPerHour * row.lineEfficiency) + tot'
      · rw [if_pos hfin, htasks1]
        refine ⟨news1 ++ (W.1 ++ [⟨W.2, st.currentTime + row.quantityLiters /
            (row.processSpeedPerHour * row.lineEfficiency) + tot', Task.processing,
            row.productName, (i : Int)⟩]), by simp [List.append_assoc], ?_⟩
        intro iv hiv hw
        rcases List.mem_append.mp hiv with hiv | hiv
        · exact (hfacts1 iv hiv).2.2.2.1
        · rcases List.mem_append.mp hiv with hiv | hiv
          · obtain ⟨f1, _⟩ := (segmentWalk_spec (i : Int) row.productName st.currentTime
              (st.currentTime + row.quantityLiters /
                (row.processSpeedPerHour * row.lineEfficiency)) _ st.currentTime
              (cutWashes_intersect _ _ tasks1)).2.1 iv hiv
            rw [f1] at hw
            exact absurd hw (by simp)
          · rcases List.mem_singleton.mp hiv with rfl
            exact absurd hw (by simp)
      · rw [if_neg hfin, htasks1]
        refine ⟨news1 ++ W.1, by simp [List.append_assoc], ?_⟩
        intro iv hiv hw
        rcases List.mem_append.mp hiv with hiv | hiv
        · exact (hfacts1 iv hiv).2.2.2.1
        · obtain ⟨f1, _⟩ := (segmentWalk_spec (i : Int) row.productName st.currentTime
            (st.currentTime + row.quantityLiters /
              (row.processSpeedPerHour * row.lineEfficiency)) _ st.currentTime
            (cutWashes_intersect _ _ tasks1)).2.1 iv hiv
          rw [f1] at hw
          exact absurd hw (by simp)

/-- The whole product loop only appends, never rewinds the last-wash
cursor, and every appended wash starts at least one gap after the incoming
last-wash cursor. -/
theorem runRows_news {d g : ℚ} (fw : Option ℚ) (fuel : ℕ) (hd : 0 ≤ d) (hg : 0 ≤ g) :
    ∀ (rows : List Row) (i : ℕ) (st st' : SchedState),
      runRows d g fw fuel i rows st = some st' →
      st.lastWashEnd ≤ st'.lastWashEnd ∧
        ∃ news, st'.tasks = st.tasks ++ news ∧
          ∀ iv ∈ news, iv.task = Task.wash → st.lastWashEnd + g ≤ iv.start := by
  intro rows
  induction rows with
  | nil =>
    intro i st st' h
    rw [runRows] at h
    obtain rfl := Option.some_inj.mp h
    exact ⟨le_refl _, [], by simp, by simp⟩
  | cons row rest ih =>
    intro i st st' h
    rw [runRows] at h
    rcases hstep : stepRun d g fw fuel i row st with _ | st1
    · simp only [hstep] at h
      exact Option.noConfusion h
    · simp only [hstep] at h
      have hstep1 : st.lastWashEnd ≤ st1.lastWashEnd ∧
          ∃ news, st1.tasks = st.tasks ++ news ∧
            ∀ iv ∈ news, iv.task = Task.wash → st.lastWashEnd + g ≤ iv.start := by
        unfold stepRun at hstep
        by_cases hi : i = 0
        · rw [if_pos hi] at hstep
          exact processingPhase_news fw fuel i hd hg hstep
        · rw [if_neg hi] at hstep
          rcases hcp : changeoverPhase d g fuel i row.productName row.changeOver st with
            _ | stm
          · simp only [hcp] at hstep
            exact Option.noConfusion hstep
          · simp only [hcp] at hstep
            obtain ⟨ha1, newsa, hta, hna⟩ := changeoverPhase_news fuel i _ hd hg hcp
            obtain ⟨hb1, newsb, htb, hnb⟩ := processingPhase_news fw fuel i hd hg hstep
            refine ⟨le_trans ha1 hb1, newsa ++ newsb, by rw [htb, hta, List.append_assoc], ?_⟩
            intro iv hiv hw
            rcases List.mem_append.mp hiv with hiv | hiv
            · exact hna iv hiv hw
            · have := hnb iv hiv hw
              linarith
      obtain ⟨h1, news1, ht1, hn1⟩ := hstep1
      obtain ⟨h2, news2, ht2, hn2⟩ := ih (i + 1) st1 st' h
      refine ⟨le_trans h1 h2, news1 ++ news2, by rw [ht2, ht1, List.append_assoc], ?_⟩
      intro iv hiv hw
      rcases List.mem_append.mp hiv with hiv | hiv
      · exact hn1 iv hiv hw
      · have := hn2 iv hiv hw
        linarith

/-- C10: with a supplied `First Wash Time` `t`, a strictly positive wash
duration and a non-negative gap, the output contains exactly one wash
interval starting at `t` — the pre-anchored wash, committed once with
sentinel order `-2`: every other committed wash starts at least one
duration-plus-gap after `t`, and the processing-phase skip of candidates
starting at `t` therefore never lets the anchor be duplicated. -/
theorem c10_anchored_wash_unique (fuel : ℕ) (startTime : ℚ) (durMins gapMins : ℤ)
    (t : ℚ) (rows : List Row) (ts : List Interval)
    (hdur : 0 < durMins) (hgap : 0 ≤ gapMins)
    (h : generateTimeline fuel startTime durMins gapMins (some t) rows = some ts) :
    ts.filter (fun iv => decide (iv.task = Task.wash) && decide (iv.start = t)) =
      [⟨t, t + (durMins : ℚ) / 60, Task.wash, "Scheduled Wash", -2⟩] := by
  have hd : (0 : ℚ) < (durMins : ℚ) / 60 := by
    have : (0 : ℚ) < (durMins : ℚ) := by exact_mod_cast hdur
    positivity
  have hg : (0 : ℚ) ≤ (gapMins : ℚ) / 60 := by
    have : (0 : ℚ) ≤ (gapMins : ℚ) := by exact_mod_cast hgap
    positivity
  unfold generateTimeline at h
  rcases hrun : runRows ((durMins : ℚ) / 60) ((gapMins : ℚ) / 60) (some t) fuel 0 rows
      (initState startTime ((durMins : ℚ) / 60) (some t)) with _ | stF
  · simp only [hrun] at h
    exact Option.noConfusion h
  · simp only [hrun] at h
    obtain rfl := Option.some_inj.mp h
    have hinit : initState startTime ((durMins : ℚ) / 60) (some t) =
        ⟨startTime, t + (durMins : ℚ) / 60,
          [⟨t, t + (durMins : ℚ) / 60, Task.wash, "Scheduled Wash", -2⟩]⟩ := by
      simp only [initState]
      rw [if_pos hd]
    obtain ⟨hlw, news, htasks, hnews⟩ := runRows_news (some t) fuel hd.le hg rows 0 _ stF hrun
    rw [hinit] at htasks hlw
    rw [htasks]
    rw [List.filter_append]
    have hanchor : List.filter (fun iv : Interval =>
        decide (iv.task = Task.wash) && decide (iv.start = t))
        [⟨t, t + (durMins : ℚ) / 60, Task.wash, "Scheduled Wash", -2⟩] =
        [⟨t, t + (durMins : ℚ) / 60, Task.wash, "Scheduled Wash", -2⟩] := by
      simp
    have hnone : List.filter (fun iv : Interval =>
        decide (iv.task = Task.wash) && decide (iv.start = t)) news = [] := by
      rw [List.filter_eq_nil_iff]
      intro iv hiv
      rw [Bool.and_eq_true, decide_eq_true_eq, decide_eq_true_eq]
      rintro ⟨hw, hstart⟩
      have := hnews iv hiv hw
      rw [hstart] at this
      simp only [hinit] at this
      linarith
    rw [hanchor, hnone]
    simp

/-- C10 witness: the anchored-wash uniqueness theorem applies to a concrete
plan with `First Wash Time = -1`, wash 20 min every 120 min, one 1 h run. -/
theorem c10_anchored_wash_unique_witness :
    ((0 : ℤ) < 20 ∧ (0 : ℤ) ≤ 120 ∧
      generateTimeline 10 0 20 120 (some (-1)) [⟨"P1", 100, 100, 1, 0⟩] =
        some [⟨-1, -2/3, Task.wash, "Scheduled Wash", -2⟩,
          ⟨0, 1, Task.processing, "P1", 0⟩]) ∧
    ([⟨-1, -2/3, Task.wash, "Scheduled Wash", -2⟩,
        (⟨0, 1, Task.processing, "P1", 0⟩ : Interval)].filter
      (fun iv => decide (iv.task = Task.wash) && decide (iv.start = -1)) =
      [⟨-1, -1 + ((20 : ℤ) : ℚ) / 60, Task.wash, "Scheduled Wash", -2⟩]) :=
  ⟨⟨by decide, by decide, by with_unfolding_all decide⟩,
    c10_anchored_wash_unique 10 0 20 120 (-1) [⟨"P1", 100, 100, 1, 0⟩]
      [⟨-1, -2/3, Task.wash, "Scheduled Wash", -2⟩, ⟨0, 1, Task.processing, "P1", 0⟩]
      (by decide) (by decide) (by with_unfolding_all decide)⟩



/-- The reference schedule never emits washes (single step). -/
theorem nominalStep_no_wash (i : ℕ) (row : Row) (c : ℚ) :
    ∀ iv ∈ (nominalStep i row c).1, iv.task ≠ Task.wash := by
  intro iv hiv
  unfold nominalStep at hiv
  by_cases hi : i = 0
  · rw [if_pos hi] at hiv
    dsimp only at hiv
    split at hiv
    · rcases List.mem_singleton.mp hiv with rfl
      simp
    · exact absurd hiv (List.not_mem_nil _)
  · rw [if_neg hi] at hiv
    dsimp only at hiv
    rcases List.mem_cons.mp hiv with rfl | hiv
    · simp
    · split at hiv
      · rcases List.mem_singleton.mp hiv with rfl
        simp
      · exact absurd hiv (List.not_mem_nil _)

/-- Every enumerated wash candidate spans exactly the wash duration (no
sign hypotheses). -/
theorem washCandidatesLoop_shape (d g bound : ℚ) :
    ∀ (fuel : ℕ) (lw : ℚ) (cands : List Wash) (lw' : ℚ),
      washCandidatesLoop d g bound fuel lw = some (cands, lw') →
      ∀ w ∈ cands, w.stop = w.start + d := by
  intro fuel
  induction fuel with
  | zero => intro lw cands lw' h; simp [washCandidatesLoop] at h
  | succ n ih =>
    intro lw cands lw' h
    rw [washCandidatesLoop] at h
    by_cases hc : lw + g < bound
    · rw [if_pos hc] at h
      rcases hrec : washCandidatesLoop d g bound n (lw + g + d) with _ | ⟨ws, lwr⟩
      · simp only [hrec] at h
        exact Option.noConfusion h
      · simp only [hrec, Option.some.injEq, Prod.mk.injEq] at h
        obtain ⟨hcands, _⟩ := h
        subst hcands
        intro w hw
        rcases List.mem_cons.mp hw with rfl | hw
        · rfl
        · exact ih _ _ _ hrec w hw
    · rw [if_neg hc] at h
      simp only [Option.some.injEq, Prod.mk.injEq] at h
      obtain ⟨h1, _⟩ := h
      subst h1
      simp

/-- With zero wash duration, the processing wash loop exits at its first
candidate without committing anything or moving any cursor: the candidate's
degenerate span can never strictly overlap the window. -/
theorem processingWashLoop_zero_dur (g : ℚ) (fw : Option ℚ) (c pe : ℚ) (fuel : ℕ)
    (lw tot : ℚ) (tasks tasks' : List Interval) (tot' lw' : ℚ)
    (h : processingWashLoop 0 g fw c pe fuel lw tot tasks = some (tasks', tot', lw')) :
    tasks' = tasks ∧ tot' = tot ∧ lw' = lw := by
  cases fuel with
  | zero => simp [processingWashLoop] at h
  | succ n =>
    rw [processingWashLoop] at h
    by_cases hc : lw + g < pe + tot
    · rw [if_pos hc] at h
      have hno : ¬(max c (lw + g) < min (pe + tot) (lw + g + 0)) := by
        have h1 : min (pe + tot) (lw + g + 0) ≤ lw + g := by
          rw [add_zero]; exact min_le_right _ _
        have h2 : lw + g ≤ max c (lw + g) := le_max_right _ _
        linarith
      rw [if_neg hno] at h
      simp only [Option.some.injEq, Prod.mk.injEq] at h
      obtain ⟨h1, h2, h3⟩ := h
      exact ⟨h1.symm, h2.symm, h3.symm⟩
    · rw [if_neg hc] at h
      simp only [Option.some.injEq, Prod.mk.injEq] at h
      obtain ⟨h1, h2, h3⟩ := h
      exact ⟨h1.symm, h2.symm, h3.symm⟩



/-- With zero wash duration, the changeover phase always commits the
nominal changeover interval: all enumerated candidates are degenerate, so
none strictly intersects the window and suppression never fires. -/
theorem changeoverPhase_zero_dur (g co : ℚ) (fuel i : ℕ) (name : String)
    {st st' : SchedState} (h : changeoverPhase 0 g fuel i name co st = some st') :
    st'.currentTime = st.currentTime + co / 60 ∧ st'.tasks = st.tasks ++
      [⟨st.currentTime, st.currentTime + co / 60, Task.changeover, name, (i : Int)⟩] := by
  unfold changeoverPhase at h
  rcases hwc : washCandidatesLoop 0 g (st.currentTime + co / 60) fuel st.lastWashEnd with
    _ | ⟨cands, lw'⟩
  · simp only [hwc] at h
    exact Option.noConfusion h
  · simp only [hwc] at h
    have hshape := washCandidatesLoop_shape 0 g _ fuel _ _ _ hwc
    have hA : cands.any (fun w =>
        decide (max st.currentTime w.start < min (st.currentTime + co / 60) w.stop)) = false := by
      rw [List.any_eq_false]
      intro w hw
      rw [Bool.not_eq_true, decide_eq_false_iff_not]
      have hws : w.stop = w.start := by rw [hshape w hw, add_zero]
      intro hlt
      have h1 : min (st.currentTime + co / 60) w.stop ≤ w.start := by
        rw [hws]; exact min_le_right _ _
      have h2 : w.start ≤ max st.currentTime w.start := le_max_right _ _
      linarith
    rw [Bool.eq_false_iff] at hA
    rw [if_neg hA] at h
    obtain rfl := Option.some_inj.mp h
    exact ⟨rfl, rfl⟩

/-- With zero wash duration and no wash yet committed, the processing
phase emits exactly the nominal processing interval (when nonempty) and
advances the cursor by the nominal duration. -/
theorem processingPhase_zero_dur (g : ℚ) (fw : Option ℚ) (fuel i : ℕ) {row : Row}
    {st st' : SchedState} (hnw : ∀ iv ∈ st.tasks, iv.task ≠ Task.wash)
    (h : processingPhase 0 g fw fuel i row st = some st') :
    st'.currentTime = st.currentTime +
      row.quantityLiters / (row.processSpeedPerHour * row.lineEfficiency) ∧
    st'.lastWashEnd = st.lastWashEnd ∧
    st'.tasks = st.tasks ++
      (if st.currentTime < st.currentTime +
          row.quantityLiters / (row.processSpeedPerHour * row.lineEfficiency) then
        [⟨st.currentTime, st.currentTime +
          row.quantityLiters / (row.processSpeedPerHour * row.lineEfficiency),
          Task.processing, row.productName, (i : Int)⟩]
      else []) := by
  unfold processingPhase at h
  rcases hpl : processingWashLoop 0 g fw st.currentTime
      (st.currentTime + row.quantityLiters / (row.processSpeedPerHour * row.lineEfficiency))
      fuel st.lastWashEnd 0 st.tasks with _ | ⟨tasks1, tot', lw'⟩
  · simp only [hpl] at h
    exact Option.noConfusion h
  · simp only [hpl] at h
    obtain ⟨rfl, rfl, rfl⟩ := processingWashLoop_zero_dur g fw _ _ fuel _ _ _ _ _ _ hpl
    obtain rfl := Option.some_inj.mp h
    have hfilter : (st.tasks.filter fun iv =>
        decide (iv.task = Task.wash) &&
        decide (max st.currentTime iv.start < min (st.currentTime +
          row.quantityLiters / (row.processSpeedPerHour * row.lineEfficiency)) iv.stop)) =
        [] := by
      rw [List.filter_eq_nil_iff]
      intro iv hiv
      rw [Bool.not_eq_true, Bool.and_eq_false_iff]
      left
      rw [decide_eq_false_iff_not]
      exact hnw iv hiv
    refine ⟨by dsimp only; rw [add_zero], rfl, ?_⟩
    dsimp only
    rw [hfilter]
    simp only [List.map_nil, sortWashes, segmentWalk, add_zero, List.append_nil]
    split <;> simp

/-- With zero wash duration, one run produces exactly its nominal step. -/
theorem stepRun_zero_dur (g : ℚ) (fw : Option ℚ) (fuel i : ℕ) {row : Row}
    {st st' : SchedState} (hnw : ∀ iv ∈ st.tasks, iv.task ≠ Task.wash)
    (h : stepRun 0 g fw fuel i row st = some st') :
    st'.currentTime = (nominalStep i row st.currentTime).2 ∧
    st'.tasks = st.tasks ++ (nominalStep i row st.currentTime).1 := by
  unfold stepRun at h
  by_cases hi : i = 0
  · rw [if_pos hi] at h
    obtain ⟨h1, _, h3⟩ := processingPhase_zero_dur g fw fuel i hnw h
    unfold nominalStep
    rw [if_pos hi]
    exact ⟨h1, h3⟩
  · rw [if_neg hi] at h
    rcases hcp : changeoverPhase 0 g fuel i row.productName row.changeOver st with _ | st1
    · simp only [hcp] at h
      exact Option.noConfusion h
    · simp only [hcp] at h
      obtain ⟨hc1, ht1⟩ := changeoverPhase_zero_dur g row.changeOver fuel i row.productName hcp
      have hnw1 : ∀ iv ∈ st1.tasks, iv.task ≠ Task.wash := by
        rw [ht1]
        intro iv hiv
        rcases List.mem_append.mp hiv with hiv | hiv
        · exact hnw iv hiv
        · rcases List.mem_singleton.mp hiv with rfl
          simp
      obtain ⟨h1, _, h3⟩ := processingPhase_zero_dur g fw fuel i hnw1 h
      unfold nominalStep
      rw [if_neg hi]
      constructor
      · rw [h1, hc1]
      · rw [h3, ht1, hc1, List.append_assoc]
        rfl

/-- With zero wash duration, the product loop produces exactly the
reference schedule. -/
theorem runRows_zero_dur (g : ℚ) (fw : Option ℚ) (fuel : ℕ) :
    ∀ (rows : List Row) (i : ℕ) (st st' : SchedState),
      (∀ iv ∈ st.tasks, iv.task ≠ Task.wash) →
      runRows 0 g fw fuel i rows st = some st' →
      st'.tasks = st.tasks ++ nominalRows i rows st.currentTime := by
  intro rows
  induction rows with
  | nil =>
    intro i st st' _ h
    rw [runRows] at h
    obtain rfl := Option.some_inj.mp h
    simp [nominalRows]
  | cons row rest ih =>
    intro i st st' hnw h
    rw [runRows] at h
    rcases hstep : stepRun 0 g fw fuel i row st with _ | st1
    · simp only [hstep] at h
      exact Option.noConfusion h
    · simp only [hstep] at h
      obtain ⟨hc1, ht1⟩ := stepRun_zero_dur g fw fuel i hnw hstep
      have hnw1 : ∀ iv ∈ st1.tasks, iv.task ≠ Task.wash := by
        rw [ht1]
        intro iv hiv
        rcases List.mem_append.mp hiv with hiv | hiv
        · exact hnw iv hiv
        · exact nominalStep_no_wash i row st.currentTime iv hiv
      have := ih (i + 1) st1 st' hnw1 h
      rw [this, ht1, hc1, List.append_assoc]
      rfl

/-- The reference schedule never emits washes. -/
theorem nominalRows_no_wash :
    ∀ (rows : List Row) (i : ℕ) (c : ℚ), ∀ iv ∈ nominalRows i rows c, iv.task ≠ Task.wash := by
  intro rows
  induction rows with
  | nil => intro i c iv hiv; simp [nominalRows] at hiv
  | cons row rest ih =>
    intro i c iv hiv
    rw [nominalRows] at hiv
    rcases List.mem_append.mp hiv with hiv | hiv
    · exact nominalStep_no_wash i row c iv hiv
    · exact ih (i + 1) _ iv hiv

/-- C7: wash disabling.  With `Duration = 0` (and any `Gap`), whenever the
pass terminates its output contains no wash interval at all and equals the
wash-free reference schedule: every changeover interval is the nominal
`[currentTime, currentTime + changeoverMinutes/60)` and every processing
interval the nominal `[currentTime, currentTime + quantity/(speed *
efficiency))`, with no extension. -/
theorem c7_wash_disabled (fuel : ℕ) (startTime : ℚ) (gapMins : ℤ) (fw : Option ℚ)
    (rows : List Row) (ts : List Interval)
    (h : generateTimeline fuel startTime 0 gapMins fw rows = some ts) :
    (∀ iv ∈ ts, iv.task ≠ Task.wash) ∧ ts = nominalTimeline startTime rows := by
  unfold generateTimeline at h
  have h0 : ((0 : ℤ) : ℚ) / 60 = 0 := by norm_num
  rw [h0] at h
  rcases hrun : runRows 0 ((gapMins : ℚ) / 60) fw fuel 0 rows (initState startTime 0 fw) with
    _ | stF
  · simp only [hrun] at h
    exact Option.noConfusion h
  · simp only [hrun] at h
    obtain rfl := Option.some_inj.mp h
    have hinit_tasks : (initState startTime 0 fw).tasks = [] := by
      rcases fw with _ | t
      · rfl
      · simp only [initState]
        rw [if_neg (by norm_num)]
    have hinit_c : (initState startTime 0 fw).currentTime = startTime := by
      rcases fw with _ | t
      · rfl
      · simp only [initState]
        rw [if_neg (by norm_num)]
    have hmain := runRows_zero_dur ((gapMins : ℚ) / 60) fw fuel rows 0 _ stF
      (by rw [hinit_tasks]; simp) hrun
    rw [hinit_tasks, hinit_c] at hmain
    rw [hmain]
    simp only [List.nil_append]
    exact ⟨fun iv hiv => nominalRows_no_wash rows 0 startTime iv hiv, rfl⟩


/-- C7 witness: the wash-disabling theorem applies to a concrete two-row
plan with `Duration = 0`, `Gap = 120`. -/
theorem c7_wash_disabled_witness :
    (generateTimeline 10 0 0 120 none [⟨"P1", 100, 100, 1, 0⟩, ⟨"P2", 200, 100, 1, 30⟩] =
      some [⟨0, 1, Task.processing, "P1", 0⟩, ⟨1, 3/2, Task.changeover, "P2", 1⟩,
        ⟨3/2, 7/2, Task.processing, "P2", 1⟩]) ∧
    ((∀ iv ∈ [⟨0, 1, Task.processing, "P1", 0⟩, ⟨1, 3/2, Task.changeover, "P2", 1⟩,
        (⟨3/2, 7/2, Task.processing, "P2", 1⟩ : Interval)], iv.task ≠ Task.wash) ∧
      [⟨0, 1, Task.processing, "P1", 0⟩, ⟨1, 3/2, Task.changeover, "P2", 1⟩,
        (⟨3/2, 7/2, Task.processing, "P2", 1⟩ : Interval)] =
        nominalTimeline 0 [⟨"P1", 100, 100, 1, 0⟩, ⟨"P2", 200, 100, 1, 30⟩]) :=
  ⟨by with_unfolding_all decide,
    c7_wash_disabled 10 0 120 none [⟨"P1", 100, 100, 1, 0⟩, ⟨"P2", 200, 100, 1, 30⟩]
      [⟨0, 1, Task.processing, "P1", 0⟩, ⟨1, 3/2, Task.changeover, "P2", 1⟩,
        ⟨3/2, 7/2, Task.processing, "P2", 1⟩]
      (by with_unfolding_all decide)⟩

end ProductionPlanner
